import Mathlib

/-!
Verification of the `sphinx_syntax` grammar-documentation core: the interned
rule-content AST (`model.py`), the grammar model and its lookup over a possibly
cyclic import graph, the reachability finder (`reachable_finder.py`), the
diagram renderer (`model_renderer.py`) and the ordering engine
(`autodoc.py::make_order`).

Python objects are modelled as plain inductive values.  Object identity (`is`)
is modelled as value equality of the embedding; the module-level `EMPTY`
singleton — a `Sequence` instance created outside the intern table — is
distinguished from constructor-produced sequences by an explicit
`isEmptySingleton` marker, so that value equality of `RC` agrees with object
identity of the Python AST nodes.  Python's structural equality (`==`, which
ignores the `linebreaks` field at every level because it is declared with
`compare=False`) is modelled by `RC.normalize`-equality.
-/

namespace SphinxSyntax

/-- `syntax_diagrams.LineBreak` (external library): layout hint stored per
junction of a sequence. -/
inductive LineBreak where
  | DEFAULT
  | SOFT
  | HARD
deriving DecidableEq, Repr

/-- The rule-content AST of `sphinx_syntax.model`.  One constructor per
concrete `RuleContent` subclass.  A `reference` stores the id of the model it
was created in plus the referenced rule name (`Reference.model`,
`Reference.name`).  A `sequence` stores children, linebreaks and the marker
distinguishing the module-level `EMPTY` singleton from interned sequence
objects with the same structural content. -/
inductive RC where
  | literal (content : String)
  | range (start stop : String)
  | charset (content : String)
  | reference (mid : Nat) (name : String)
  | doc (value : String)
  | wildcard
  | negation (child : RC)
  | zeroPlus (child : RC)
  | onePlus (child : RC)
  | sequence (children : List RC) (linebreaks : List LineBreak)
      (isEmptySingleton : Bool)
  | alternative (children : List RC)

mutual

/-- Decidable equality for `RC`, written out explicitly so that it uses
structural recursion and therefore reduces inside the kernel. -/
def RC.decEq : (a b : RC) → Decidable (a = b)
  | (.literal a1), (.literal a2) =>
      if h : a1 = a2 then .isTrue (congrArg RC.literal h)
      else .isFalse (fun e => h (RC.literal.inj e))
  | (.literal _), (.range _ _) => .isFalse (fun h => RC.noConfusion h)
  | (.literal _), (.charset _) => .isFalse (fun h => RC.noConfusion h)
  | (.literal _), (.reference _ _) => .isFalse (fun h => RC.noConfusion h)
  | (.literal _), (.doc _) => .isFalse (fun h => RC.noConfusion h)
  | (.literal _), .wildcard => .isFalse (fun h => RC.noConfusion h)
  | (.literal _), (.negation _) => .isFalse (fun h => RC.noConfusion h)
  | (.literal _), (.zeroPlus _) => .isFalse (fun h => RC.noConfusion h)
  | (.literal _), (.onePlus _) => .isFalse (fun h => RC.noConfusion h)
  | (.literal _), (.sequence _ _ _) => .isFalse (fun h => RC.noConfusion h)
  | (.literal _), (.alternative _) => .isFalse (fun h => RC.noConfusion h)
  | (.range a1 b1), (.range a2 b2) =>
      if h1 : a1 = a2 then
        if h2 : b1 = b2 then .isTrue (by rw [h1, h2])
        else .isFalse (fun e => h2 (RC.range.inj e).2)
      else .isFalse (fun e => h1 (RC.range.inj e).1)
  | (.range _ _), (.literal _) => .isFalse (fun h => RC.noConfusion h)
  | (.range _ _), (.charset _) => .isFalse (fun h => RC.noConfusion h)
  | (.range _ _), (.reference _ _) => .isFalse (fun h => RC.noConfusion h)
  | (.range _ _), (.doc _) => .isFalse (fun h => RC.noConfusion h)
  | (.range _ _), .wildcard => .isFalse (fun h => RC.noConfusion h)
  | (.range _ _), (.negation _) => .isFalse (fun h => RC.noConfusion h)
  | (.range _ _), (.zeroPlus _) => .isFalse (fun h => RC.noConfusion h)
  | (.range _ _), (.onePlus _) => .isFalse (fun h => RC.noConfusion h)
  | (.range _ _), (.sequence _ _ _) => .isFalse (fun h => RC.noConfusion h)
  | (.range _ _), (.alternative _) => .isFalse (fun h => RC.noConfusion h)
  | (.charset a1), (.charset a2) =>
      if h : a1 = a2 then .isTrue (congrArg RC.charset h)
      else .isFalse (fun e => h (RC.charset.inj e))
  | (.charset _), (.literal _) => .isFalse (fun h => RC.noConfusion h)
  | (.charset _), (.range _ _) => .isFalse (fun h => RC.noConfusion h)
  | (.charset _), (.reference _ _) => .isFalse (fun h => RC.noConfusion h)
  | (.charset _), (.doc _) => .isFalse (fun h => RC.noConfusion h)
  | (.charset _), .wildcard => .isFalse (fun h => RC.noConfusion h)
  | (.charset _), (.negation _) => .isFalse (fun h => RC.noConfusion h)
  | (.charset _), (.zeroPlus _) => .isFalse (fun h => RC.noConfusion h)
  | (.charset _), (.onePlus _) => .isFalse (fun h => RC.noConfusion h)
  | (.charset _), (.sequence _ _ _) => .isFalse (fun h => RC.noConfusion h)
  | (.charset _), (.alternative _) => .isFalse (fun h => RC.noConfusion h)
  | (.reference a1 b1), (.reference a2 b2) =>
      if h1 : a1 = a2 then
        if h2 : b1 = b2 then .isTrue (by rw [h1, h2])
        else .isFalse (fun e => h2 (RC.reference.inj e).2)
      else .isFalse (fun e => h1 (RC.reference.inj e).1)
  | (.reference _ _), (.literal _) => .isFalse (fun h => RC.noConfusion h)
  | (.reference _ _), (.range _ _) => .isFalse (fun h => RC.noConfusion h)
  | (.reference _ _), (.charset _) => .isFalse (fun h => RC.noConfusion h)
  | (.reference _ _), (.doc _) => .isFalse (fun h => RC.noConfusion h)
  | (.reference _ _), .wildcard => .isFalse (fun h => RC.noConfusion h)
  | (.reference _ _), (.negation _) => .isFalse (fun h => RC.noConfusion h)
  | (.reference _ _), (.zeroPlus _) => .isFalse (fun h => RC.noConfusion h)
  | (.reference _ _), (.onePlus _) => .isFalse (fun h => RC.noConfusion h)
  | (.reference _ _), (.sequence _ _ _) => .isFalse (fun h => RC.noConfusion h)
  | (.reference _ _), (.alternative _) => .isFalse (fun h => RC.noConfusion h)
  | (.doc a1), (.doc a2) =>
      if h : a1 = a2 then .isTrue (congrArg RC.doc h)
      else .isFalse (fun e => h (RC.doc.inj e))
  | (.doc _), (.literal _) => .isFalse (fun h => RC.noConfusion h)
  | (.doc _), (.range _ _) => .isFalse (fun h => RC.noConfusion h)
  | (.doc _), (.charset _) => .isFalse (fun h => RC.noConfusion h)
  | (.doc _), (.reference _ _) => .isFalse (fun h => RC.noConfusion h)
  | (.doc _), .wildcard => .isFalse (fun h => RC.noConfusion h)
  | (.doc _), (.negation _) => .isFalse (fun h => RC.noConfusion h)
  | (.doc _), (.zeroPlus _) => .isFalse (fun h => RC.noConfusion h)
  | (.doc _), (.onePlus _) => .isFalse (fun h => RC.noConfusion h)
  | (.doc _), (.sequence _ _ _) => .isFalse (fun h => RC.noConfusion h)
  | (.doc _), (.alternative _) => .isFalse (fun h => RC.noConfusion h)
  | .wildcard, .wildcard => .isTrue rfl
  | .wildcard, (.literal _) => .isFalse (fun h => RC.noConfusion h)
  | .wildcard, (.range _ _) => .isFalse (fun h => RC.noConfusion h)
  | .wildcard, (.charset _) => .isFalse (fun h => RC.noConfusion h)
  | .wildcard, (.reference _ _) => .isFalse (fun h => RC.noConfusion h)
  | .wildcard, (.doc _) => .isFalse (fun h => RC.noConfusion h)
  | .wildcard, (.negation _) => .isFalse (fun h => RC.noConfusion h)
  | .wildcard, (.zeroPlus _) => .isFalse (fun h => RC.noConfusion h)
  | .wildcard, (.onePlus _) => .isFalse (fun h => RC.noConfusion h)
  | .wildcard, (.sequence _ _ _) => .isFalse (fun h => RC.noConfusion h)
  | .wildcard, (.alternative _) => .isFalse (fun h => RC.noConfusion h)
  | (.negation a1), (.negation a2) =>
      match RC.decEq a1 a2 with
      | .isTrue h => .isTrue (congrArg RC.negation h)
      | .isFalse h => .isFalse (fun e => h (RC.negation.inj e))
  | (.negation _), (.literal _) => .isFalse (fun h => RC.noConfusion h)
  | (.negation _), (.range _ _) => .isFalse (fun h => RC.noConfusion h)
  | (.negation _), (.charset _) => .isFalse (fun h => RC.noConfusion h)
  | (.negation _), (.reference _ _) => .isFalse (fun h => RC.noConfusion h)
  | (.negation _), (.doc _) => .isFalse (fun h => RC.noConfusion h)
  | (.negation _), .wildcard => .isFalse (fun h => RC.noConfusion h)
  | (.negation _), (.zeroPlus _) => .isFalse (fun h => RC.noConfusion h)
  | (.negation _), (.onePlus _) => .isFalse (fun h => RC.noConfusion h)
  | (.negation _), (.sequence _ _ _) => .isFalse (fun h => RC.noConfusion h)
  | (.negation _), (.alternative _) => .isFalse (fun h => RC.noConfusion h)
  | (.zeroPlus a1), (.zeroPlus a2) =>
      match RC.decEq a1 a2 with
      | .isTrue h => .isTrue (congrArg RC.zeroPlus h)
      | .isFalse h => .isFalse (fun e => h (RC.zeroPlus.inj e))
  | (.zeroPlus _), (.literal _) => .isFalse (fun h => RC.noConfusion h)
  | (.zeroPlus _), (.range _ _) => .isFalse (fun h => RC.noConfusion h)
  | (.zeroPlus _), (.charset _) => .isFalse (fun h => RC.noConfusion h)
  | (.zeroPlus _), (.reference _ _) => .isFalse (fun h => RC.noConfusion h)
  | (.zeroPlus _), (.doc _) => .isFalse (fun h => RC.noConfusion h)
  | (.zeroPlus _), .wildcard => .isFalse (fun h => RC.noConfusion h)
  | (.zeroPlus _), (.negation _) => .isFalse (fun h => RC.noConfusion h)
  | (.zeroPlus _), (.onePlus _) => .isFalse (fun h => RC.noConfusion h)
  | (.zeroPlus _), (.sequence _ _ _) => .isFalse (fun h => RC.noConfusion h)
  | (.zeroPlus _), (.alternative _) => .isFalse (fun h => RC.noConfusion h)
  | (.onePlus a1), (.onePlus a2) =>
      match RC.decEq a1 a2 with
      | .isTrue h => .isTrue (congrArg RC.onePlus h)
      | .isFalse h => .isFalse (fun e => h (RC.onePlus.inj e))
  | (.onePlus _), (.literal _) => .isFalse (fun h => RC.noConfusion h)
  | (.onePlus _), (.range _ _) => .isFalse (fun h => RC.noConfusion h)
  | (.onePlus _), (.charset _) => .isFalse (fun h => RC.noConfusion h)
  | (.onePlus _), (.reference _ _) => .isFalse (fun h => RC.noConfusion h)
  | (.onePlus _), (.doc _) => .isFalse (fun h => RC.noConfusion h)
  | (.onePlus _), .wildcard => .isFalse (fun h => RC.noConfusion h)
  | (.onePlus _), (.negation _) => .isFalse (fun h => RC.noConfusion h)
  | (.onePlus _), (.zeroPlus _) => .isFalse (fun h => RC.noConfusion h)
  | (.onePlus _), (.sequence _ _ _) => .isFalse (fun h => RC.noConfusion h)
  | (.onePlus _), (.alternative _) => .isFalse (fun h => RC.noConfusion h)
  | (.sequence c1 l1 t1), (.sequence c2 l2 t2) =>
      match RC.decEqList c1 c2 with
      | .isFalse h => .isFalse (fun e => h (RC.sequence.inj e).1)
      | .isTrue h1 =>
          if h2 : l1 = l2 then
            if h3 : t1 = t2 then .isTrue (by rw [h1, h2, h3])
            else .isFalse (fun e => h3 (RC.sequence.inj e).2.2)
          else .isFalse (fun e => h2 (RC.sequence.inj e).2.1)
  | (.sequence _ _ _), (.literal _) => .isFalse (fun h => RC.noConfusion h)
  | (.sequence _ _ _), (.range _ _) => .isFalse (fun h => RC.noConfusion h)
  | (.sequence _ _ _), (.charset _) => .isFalse (fun h => RC.noConfusion h)
  | (.sequence _ _ _), (.reference _ _) => .isFalse (fun h => RC.noConfusion h)
  | (.sequence _ _ _), (.doc _) => .isFalse (fun h => RC.noConfusion h)
  | (.sequence _ _ _), .wildcard => .isFalse (fun h => RC.noConfusion h)
  | (.sequence _ _ _), (.negation _) => .isFalse (fun h => RC.noConfusion h)
  | (.sequence _ _ _), (.zeroPlus _) => .isFalse (fun h => RC.noConfusion h)
  | (.sequence _ _ _), (.onePlus _) => .isFalse (fun h => RC.noConfusion h)
  | (.sequence _ _ _), (.alternative _) => .isFalse (fun h => RC.noConfusion h)
  | (.alternative c1), (.alternative c2) =>
      match RC.decEqList c1 c2 with
      | .isTrue h => .isTrue (congrArg RC.alternative h)
      | .isFalse h => .isFalse (fun e => h (RC.alternative.inj e))
  | (.alternative _), (.literal _) => .isFalse (fun h => RC.noConfusion h)
  | (.alternative _), (.range _ _) => .isFalse (fun h => RC.noConfusion h)
  | (.alternative _), (.charset _) => .isFalse (fun h => RC.noConfusion h)
  | (.alternative _), (.reference _ _) => .isFalse (fun h => RC.noConfusion h)
  | (.alternative _), (.doc _) => .isFalse (fun h => RC.noConfusion h)
  | (.alternative _), .wildcard => .isFalse (fun h => RC.noConfusion h)
  | (.alternative _), (.negation _) => .isFalse (fun h => RC.noConfusion h)
  | (.alternative _), (.zeroPlus _) => .isFalse (fun h => RC.noConfusion h)
  | (.alternative _), (.onePlus _) => .isFalse (fun h => RC.noConfusion h)
  | (.alternative _), (.sequence _ _ _) => .isFalse (fun h => RC.noConfusion h)

/-- Decidable equality for lists of `RC` nodes. -/
def RC.decEqList : (a b : List RC) → Decidable (a = b)
  | [], [] => .isTrue rfl
  | [], _ :: _ => .isFalse (fun h => List.noConfusion h)
  | _ :: _, [] => .isFalse (fun h => List.noConfusion h)
  | a :: as, b :: bs =>
      match RC.decEq a b, RC.decEqList as bs with
      | .isTrue h1, .isTrue h2 => .isTrue (by rw [h1, h2])
      | .isFalse h1, _ => .isFalse (fun e => h1 (List.cons.inj e).1)
      | _, .isFalse h2 => .isFalse (fun e => h2 (List.cons.inj e).2)

end

instance : DecidableEq RC := RC.decEq


/-- The module-level `EMPTY` singleton: the empty sequence created with
`object.__new__(Sequence)` at the bottom of `model.py`. -/
def EMPTY : RC := .sequence [] [] true

/-- The module-level `WILDCARD` singleton. -/
def WILDCARD : RC := .wildcard

mutual

/-- Python structural equality (`==`) on AST nodes ignores `linebreaks`
(declared `compare=False`) at every nesting level, and the `EMPTY` marker is
not a dataclass field at all.  `normalize` erases both, so `==` is
`normalize`-equality. -/
def RC.normalize : RC → RC
  | .literal c => .literal c
  | .range a b => .range a b
  | .charset c => .charset c
  | .reference m n => .reference m n
  | .doc v => .doc v
  | .wildcard => .wildcard
  | .negation c => .negation c.normalize
  | .zeroPlus c => .zeroPlus c.normalize
  | .onePlus c => .onePlus c.normalize
  | .sequence cs _ _ => .sequence (RC.normalizeList cs) [] false
  | .alternative cs => .alternative (RC.normalizeList cs)

/-- `normalize` mapped over a child list. -/
def RC.normalizeList : List RC → List RC
  | [] => []
  | c :: cs => c.normalize :: RC.normalizeList cs

end

/-- Python `==` on AST nodes: dataclass equality with `linebreaks` excluded. -/
def structEq (a b : RC) : Bool :=
  a.normalize = b.normalize

/-- `ZeroPlus.__new__`: `ZeroPlus(EMPTY)` collapses to `EMPTY`. -/
def zeroPlusNew (child : RC) : RC :=
  if child = EMPTY then child else .zeroPlus child

/-- `OnePlus.__new__`: `OnePlus(EMPTY)` collapses to `EMPTY`. -/
def onePlusNew (child : RC) : RC :=
  if child = EMPTY then child else .onePlus child

/-- `itertools.zip_longest(children, linebreaks)` specialised to the shapes
`Sequence.__new__` produces: every child is paired with the positional
linebreak when one exists, `none` past the end of `linebreaks`. -/
def zipLongestLB : List RC → List LineBreak → List (RC × Option LineBreak)
  | [], _ => []
  | c :: cs, [] => (c, none) :: zipLongestLB cs []
  | c :: cs, l :: ls => (c, some l) :: zipLongestLB cs ls

/-- The body of the `for item, linebreak in zip_longest(...)` loop of
`Sequence.__new__`: skip `EMPTY` children (together with their junction
linebreak), splice nested sequences (children and linebreaks), keep other
children, and append the junction linebreak after each kept item. -/
def seqFold : List (RC × Option LineBreak) → List RC × List LineBreak
  | [] => ([], [])
  | (item, lb) :: rest =>
      let (rc, rl) := seqFold rest
      if item = EMPTY then (rc, rl)
      else
        match item with
        | .sequence cc cl _ => (cc ++ rc, cl ++ (lb.toList ++ rl))
        | other => (other :: rc, lb.toList ++ rl)

/-- `Sequence.__new__`: empty argument tuple returns `EMPTY`, a one-element
tuple returns that element, otherwise the children/linebreak lists are
flattened by `seqFold` (with `linebreaks` defaulting to all-`DEFAULT` of
length `len(children) - 1`) and a fresh `Sequence` object is built.  The
`children = tuple(_children)` / `linebreaks = tuple(_linebreaks)` snapshot
lines sit *inside* the loop, after the `continue`, so the object keeps the
accumulated lists as of the last iteration whose item was not `EMPTY`; the
iterations after that one are all skipped and accumulate nothing, so this
is the full fold — except when every element is `EMPTY`: then no iteration
reaches the snapshot and the object keeps the original children tuple and
the (defaulted) linebreaks. -/
def seqNew (children : List RC) (linebreaks : Option (List LineBreak)) : RC :=
  match children with
  | [] => EMPTY
  | [c] => c
  | cs =>
      let lbs := linebreaks.getD (List.replicate (cs.length - 1) .DEFAULT)
      if cs.all (fun c => decide (c = EMPTY)) then .sequence cs lbs false
      else
        .sequence (seqFold (zipLongestLB cs lbs)).1
          (seqFold (zipLongestLB cs lbs)).2 false

/-- `Alternative.__new__`: zero children give `EMPTY`, one child gives that
child, otherwise nested alternatives are flattened one level. -/
def altNew (children : List RC) : RC :=
  match children with
  | [] => EMPTY
  | [c] => c
  | cs =>
      .alternative (cs.flatMap (fun c =>
        match c with
        | .alternative inner => inner
        | other => [other]))


/-! ## Projections and well-formedness of sequence nodes -/

/-- Children of a sequence node (empty list for any other node). -/
def seqChildren : RC → List RC
  | .sequence cs _ _ => cs
  | _ => []

/-- Linebreaks of a sequence node (empty list for any other node). -/
def seqLinebreaks : RC → List LineBreak
  | .sequence _ ls _ => ls
  | _ => []

/-- A node is sequence-wellformed when, if it is a `Sequence` object, its
`linebreaks` tuple is one shorter than its `children` tuple.  (`EMPTY` is not
sequence-wellformed: it has zero children and zero linebreaks.) -/
def seqWF (c : RC) : Bool :=
  match c with
  | .sequence cs ls _ => cs.length = ls.length + 1
  | _ => true

/-- Key lemma for the linebreak-count invariant: one pass of the
`Sequence.__new__` loop keeps one more child than linebreak, provided the
input linebreaks are one fewer than the input children, every non-`EMPTY`
`Sequence` element is itself wellformed, and the final element is not
`EMPTY`. -/
theorem seqFold_length (cs : List RC) (lbs : List LineBreak)
    (hne : cs ≠ [])
    (hlen : lbs.length + 1 = cs.length)
    (hwf : ∀ c ∈ cs, c ≠ EMPTY → seqWF c = true)
    (hlast : cs.getLast? ≠ some EMPTY) :
    (seqFold (zipLongestLB cs lbs)).1.length
      = (seqFold (zipLongestLB cs lbs)).2.length + 1 := by
  induction cs generalizing lbs with
  | nil => exact absurd rfl hne
  | cons c cs ih =>
    cases cs with
    | nil =>
      have hlbs : lbs = [] := by
        cases lbs with
        | nil => rfl
        | cons l ls => simp at hlen
      subst hlbs
      have hcE : c ≠ EMPTY := by
        simpa [List.getLast?] using hlast
      simp only [zipLongestLB, seqFold, if_neg hcE]
      cases hc : c with
      | sequence cc cl t =>
        have := hwf c (by simp) hcE
        rw [hc] at this
        simp only [seqWF, decide_eq_true_eq] at this
        simp [seqFold, this]
      | literal s => simp [seqFold]
      | range a b => simp [seqFold]
      | charset s => simp [seqFold]
      | reference m n => simp [seqFold]
      | doc v => simp [seqFold]
      | wildcard => simp [seqFold]
      | negation x => simp [seqFold]
      | zeroPlus x => simp [seqFold]
      | onePlus x => simp [seqFold]
      | alternative xs => simp [seqFold]
    | cons c2 cs2 =>
      obtain ⟨l, ls, rfl⟩ : ∃ l ls, lbs = l :: ls := by
        cases lbs with
        | nil => simp at hlen
        | cons l ls => exact ⟨l, ls, rfl⟩
      have hrec := ih ls (by simp) (by simpa using hlen)
        (fun x hx hxE => hwf x (by simp [hx]) hxE)
        (by simpa [List.getLast?_cons_cons] using hlast)
      simp only [zipLongestLB, seqFold]
      by_cases hcE : c = EMPTY
      · simp [hcE, hrec]
      · simp only [if_neg hcE]
        cases hc : c with
        | sequence cc cl t =>
          have := hwf c (by simp) hcE
          rw [hc] at this
          simp only [seqWF, decide_eq_true_eq] at this
          simp [this, hrec]
          omega
        | literal s => simp [hrec]
        | range a b => simp [hrec]
        | charset s => simp [hrec]
        | reference m n => simp [hrec]
        | doc v => simp [hrec]
        | wildcard => simp [hrec]
        | negation x => simp [hrec]
        | zeroPlus x => simp [hrec]
        | onePlus x => simp [hrec]
        | alternative xs => simp [hrec]

/-- A nonempty list whose elements are all `EMPTY` ends in `EMPTY`. -/
theorem getLast?_all_empty : ∀ (cs : List RC), cs ≠ [] →
    (∀ x ∈ cs, x = EMPTY) → cs.getLast? = some EMPTY := by
  intro cs
  induction cs with
  | nil => intro h; exact absurd rfl h
  | cons c cs ih =>
    intro _ hall
    cases cs with
    | nil => simpa [List.getLast?] using hall c (by simp)
    | cons c2 cs2 =>
      rw [List.getLast?_cons_cons]
      exact ih (by simp) (fun x hx => hall x (by simp [hx]))

/-- Claim C2, counterexample: `Sequence((EMPTY, Literal("a")))` is *not* the
same node as `Literal("a")` — the constructor only collapses when the original
argument tuple has at most one element, before `EMPTY` children are
stripped. -/
theorem c2_counterexample :
    seqNew [EMPTY, RC.literal "a"] none ≠ RC.literal "a" := by decide

/-- Claim C2 (amended): `Sequence(())` is the `EMPTY` singleton and a
one-element tuple yields its element unchanged, but `EMPTY`-stripping does not
re-collapse: `Sequence((EMPTY, Literal("a")))` is a `Sequence` node whose only
child is `Literal("a")`, not `Literal("a")` itself. -/
theorem c2_sequence_collapse_amended :
    (∀ lb, seqNew [] lb = EMPTY)
      ∧ (∀ (x : RC) lb, seqNew [x] lb = x)
      ∧ (∀ s, seqNew [EMPTY, RC.literal s] none
          = RC.sequence [RC.literal s] [] false) := by
  refine ⟨fun _ => rfl, fun _ _ => rfl, fun s => ?_⟩
  simp [seqNew, zipLongestLB, seqFold, EMPTY]

/-- Claim C4, counterexample: a trailing `EMPTY` child makes the constructor
keep the junction linebreak that precedes it, so
`Sequence((Literal("a"), Literal("b"), EMPTY))` has two children but two
linebreaks, violating `len(linebreaks) == len(children) - 1`. -/
theorem c4_counterexample :
    (seqLinebreaks (seqNew [RC.literal "a", RC.literal "b", EMPTY] none)).length
      ≠ (seqChildren (seqNew [RC.literal "a", RC.literal "b", EMPTY] none)).length
          - 1 := by decide

/-- Claim C4 (amended): a `Sequence` node built by the constructor from two or
more children satisfies `len(linebreaks) == len(children) - 1` for every
admissible `linebreaks` argument (`None` or one shorter than the children
tuple), provided every `Sequence` element of the input is itself wellformed
and the last element of the input tuple is not `EMPTY`.  (A trailing `EMPTY`
breaks the invariant, see the counterexample.) -/
theorem c4_linebreak_invariant_amended (cs : List RC)
    (lbs? : Option (List LineBreak))
    (hlen : 2 ≤ cs.length)
    (hadm : lbs? = none ∨ ∃ l, lbs? = some l ∧ l.length + 1 = cs.length)
    (hwf : ∀ c ∈ cs, c ≠ EMPTY → seqWF c = true)
    (hlast : cs.getLast? ≠ some EMPTY) :
    seqWF (seqNew cs lbs?) = true := by
  match cs, hlen with
  | a :: b :: rest, _ =>
    have hlblen :
        (lbs?.getD (List.replicate ((a :: b :: rest).length - 1)
          LineBreak.DEFAULT)).length + 1 = (a :: b :: rest).length := by
      rcases hadm with h | ⟨l, hl, hlen2⟩
      · subst h; simp
      · subst hl; simpa using hlen2
    have hkey := seqFold_length (a :: b :: rest)
      (lbs?.getD (List.replicate ((a :: b :: rest).length - 1)
        LineBreak.DEFAULT))
      (by simp) hlblen hwf hlast
    have hnotall :
        ((a :: b :: rest).all (fun c => decide (c = EMPTY))) = false := by
      by_cases h : (a :: b :: rest).all (fun c => decide (c = EMPTY)) = true
      · exact absurd (getLast?_all_empty _ (by simp)
          (fun x hx => of_decide_eq_true (List.all_eq_true.mp h x hx))) hlast
      · simpa using h
    simp only [seqNew]
    simp only [List.length_cons, Nat.add_sub_cancel] at hkey
    simp [seqWF, hkey, hnotall]

/-- Claim C4 witness: the amended invariant applied at a concrete input. -/
theorem c4_linebreak_invariant_amended_witness :
    seqWF (seqNew [RC.literal "a", RC.literal "b"] none) = true :=
  c4_linebreak_invariant_amended [RC.literal "a", RC.literal "b"] none
    (by decide) (Or.inl rfl) (by decide) (by decide)

/-! ## The weak intern table (`_AST_INTERN` / `_intern`) -/

/-- The global intern table, as the list of currently registered nodes. -/
abbrev InternTable := List RC

/-- `_intern`: `setdefault` on the weak table keyed by structural equality —
return the already-registered structurally-equal node if one exists, else
register the candidate and return it. -/
def intern (v : RC) (t : InternTable) : RC × InternTable :=
  match t.find? (fun u => structEq u v) with
  | some u => (u, t)
  | none => (v, t ++ [v])

/-- Argument tuples of the eleven concrete `__new__` constructors. -/
inductive CArgs where
  | literal (content : String)
  | range (start stop : String)
  | charset (content : String)
  | reference (mid : Nat) (name : String)
  | doc (value : String)
  | wildcard
  | negation (child : RC)
  | zeroPlus (child : RC)
  | onePlus (child : RC)
  | sequence (children : List RC) (linebreaks : Option (List LineBreak))
  | alternative (children : List RC)

/-- Dispatch of a constructor call: each class's `__new__`, including the
early returns that bypass the intern table — `Wildcard()` returns the
`WILDCARD` singleton, `ZeroPlus`/`OnePlus` of `EMPTY` return `EMPTY`, and
empty or one-element `Sequence`/`Alternative` tuples return `EMPTY` or the
element itself. -/
def construct (a : CArgs) (t : InternTable) : RC × InternTable :=
  match a with
  | .literal s => intern (.literal s) t
  | .range x y => intern (.range x y) t
  | .charset s => intern (.charset s) t
  | .reference m n => intern (.reference m n) t
  | .doc s => intern (.doc s) t
  | .wildcard => (WILDCARD, t)
  | .negation c => intern (.negation c) t
  | .zeroPlus c => if c = EMPTY then (c, t) else intern (.zeroPlus c) t
  | .onePlus c => if c = EMPTY then (c, t) else intern (.onePlus c) t
  | .sequence cs lbs =>
      match cs with
      | [] => (EMPTY, t)
      | [c] => (c, t)
      | _ => intern (seqNew cs lbs) t
  | .alternative cs =>
      match cs with
      | [] => (EMPTY, t)
      | [c] => (c, t)
      | _ => intern (altNew cs) t

theorem structEq_refl (v : RC) : structEq v v = true := by
  simp [structEq]

/-- Interning the same candidate twice returns the node the first call
returned. -/
theorem intern_stable (v : RC) (t : InternTable) :
    (intern v (intern v t).2).1 = (intern v t).1 := by
  unfold intern
  cases h : t.find? (fun u => structEq u v) with
  | some u => simp [h]
  | none =>
    simp only [h]
    rw [List.find?_append, h]
    simp [List.find?, structEq_refl v]

/-- `structEq` is symmetric. -/
theorem structEq_symm {a b : RC} (h : structEq a b = true) :
    structEq b a = true := by
  simp only [structEq, decide_eq_true_eq] at h ⊢
  exact h.symm

/-- `normalize` maps a child list to the empty list only when the child list
is itself empty. -/
theorem normalizeList_eq_nil {l : List RC} :
    RC.normalizeList l = [] ↔ l = [] := by
  cases l <;> simp [RC.normalizeList]

/-- If one pass of the `Sequence.__new__` loop keeps no children, every input
item was structurally equal to `EMPTY`: an item is either skipped as `EMPTY`
itself, spliced as a `Sequence` — contributing its children, so they must all
be gone — or kept, contributing itself. -/
theorem seqFold_nil_all_empty : ∀ (l : List (RC × Option LineBreak)),
    (seqFold l).1 = [] → ∀ p ∈ l, structEq p.1 EMPTY = true := by
  intro l
  induction l with
  | nil => intro _ p hp; cases hp
  | cons q rest ih =>
    obtain ⟨item, lb⟩ := q
    intro hnil p hp
    cases hsf : seqFold rest with
    | mk rc rl =>
      simp only [seqFold, hsf] at hnil
      by_cases hE : item = EMPTY
      · rcases List.mem_cons.mp hp with rfl | hp
        · simpa [hE] using structEq_refl EMPTY
        · refine ih ?_ p hp
          rw [hsf]
          simpa [hE] using hnil
      · simp only [if_neg hE] at hnil
        rcases List.mem_cons.mp hp with rfl | hp
        · cases item <;>
            simp_all [structEq, RC.normalize, RC.normalizeList, EMPTY]
        · refine ih ?_ p hp
          rw [hsf]
          cases item <;> simp_all

/-- Every element of the children list appears, with some junction linebreak,
in the zipped working list of `Sequence.__new__`. -/
theorem mem_zipLongestLB : ∀ (cs : List RC) (lbs : List LineBreak) (c : RC),
    c ∈ cs → ∃ lb, (c, lb) ∈ zipLongestLB cs lbs := by
  intro cs
  induction cs with
  | nil => intro lbs c h; cases h
  | cons x cs ih =>
    intro lbs c h
    rcases List.mem_cons.mp h with rfl | h
    · cases lbs with
      | nil => exact ⟨none, by simp [zipLongestLB]⟩
      | cons l ls => exact ⟨some l, by simp [zipLongestLB]⟩
    · cases lbs with
      | nil =>
        obtain ⟨lb, hlb⟩ := ih [] c h
        exact ⟨lb, by simp [zipLongestLB, hlb]⟩
      | cons l ls =>
        obtain ⟨lb, hlb⟩ := ih ls c h
        exact ⟨lb, by simp [zipLongestLB, hlb]⟩

/-- The intern-table invariant of a running program: nodes at hand are
pairwise identical when structurally equal, the table holds only nodes at
hand, every node at hand is interned or one of the two module-level
singletons, and both singletons are at hand. -/
def InternInv (t : InternTable) (reach : List RC) : Prop :=
  (∀ u ∈ reach, ∀ v ∈ reach, structEq u v = true → u = v)
    ∧ (∀ u ∈ t, u ∈ reach)
    ∧ (∀ u ∈ reach, u ∈ t ∨ u = EMPTY ∨ u = WILDCARD)
    ∧ EMPTY ∈ reach ∧ WILDCARD ∈ reach

/-- Pushing one more node onto the at-hand list keeps its members pairwise
identical-when-structurally-equal, provided the new node is identical to
every structurally equal member. -/
theorem pairwise_cons {reach : List RC} {x : RC}
    (h1 : ∀ u ∈ reach, ∀ v ∈ reach, structEq u v = true → u = v)
    (hx : ∀ w ∈ reach, structEq x w = true → x = w) :
    ∀ u ∈ x :: reach, ∀ v ∈ x :: reach, structEq u v = true → u = v := by
  intro u hu v hv he
  rcases List.mem_cons.mp hu with hux | hu
  · rcases List.mem_cons.mp hv with hvx | hv
    · rw [hux, hvx]
    · rw [hux] at he ⊢
      exact hx v hv he
  · rcases List.mem_cons.mp hv with hvx | hv
    · rw [hvx] at he ⊢
      exact (hx u hu (structEq_symm he)).symm
    · exact h1 u hu v hv he

/-- Returning an already-obtained node preserves the invariant. -/
theorem InternInv.reuse {t : InternTable} {reach : List RC} {x : RC}
    (h : InternInv t reach) (hx : x ∈ reach) : InternInv t (x :: reach) := by
  obtain ⟨h1, h2, h3, h4, h5⟩ := h
  refine ⟨pairwise_cons h1 (fun w hw he => h1 x hx w hw he),
    fun u hu => List.mem_cons_of_mem _ (h2 u hu), ?_,
    List.mem_cons_of_mem _ h4, List.mem_cons_of_mem _ h5⟩
  intro u hu
  rcases List.mem_cons.mp hu with hux | hu
  · rw [hux]
    exact h3 x hx
  · exact h3 u hu

/-- Interning a candidate that is not structurally equal to either singleton
preserves the invariant: `setdefault` either returns the registered
structurally-equal node, or registers the fresh candidate, which by the
`find?` failure and the singleton side conditions is structurally equal to
no node at hand. -/
theorem InternInv.register {t : InternTable} {reach : List RC} {v : RC}
    (h : InternInv t reach)
    (hvE : structEq v EMPTY = false)
    (hvW : structEq v WILDCARD = false) :
    InternInv (intern v t).2 ((intern v t).1 :: reach) := by
  obtain ⟨h1, h2, h3, h4, h5⟩ := h
  unfold intern
  cases hf : t.find? (fun u => structEq u v) with
  | some u =>
    exact InternInv.reuse ⟨h1, h2, h3, h4, h5⟩
      (h2 u (List.mem_of_find?_eq_some hf))
  | none =>
    show InternInv (t ++ [v]) (v :: reach)
    have hnone : ∀ u ∈ t, ¬ structEq u v = true := by
      intro u hu
      have := List.find?_eq_none.mp hf u hu
      simpa using this
    have hvfresh : ∀ w ∈ reach, structEq v w = true → v = w := by
      intro w hw he
      exfalso
      rcases h3 w hw with hwt | hwE | hwW
      · exact hnone w hwt (structEq_symm he)
      · rw [hwE] at he
        rw [he] at hvE
        cases hvE
      · rw [hwW] at he
        rw [he] at hvW
        cases hvW
    refine ⟨pairwise_cons h1 hvfresh, ?_, ?_, List.mem_cons_of_mem _ h4,
      List.mem_cons_of_mem _ h5⟩
    · intro u hu
      rcases List.mem_append.mp hu with hu | hu
      · exact List.mem_cons_of_mem _ (h2 u hu)
      · simp only [List.mem_singleton] at hu
        rw [hu]
        exact List.mem_cons_self _ _
    · intro u hu
      rcases List.mem_cons.mp hu with huv | hu
      · exact Or.inl (by simp [huv])
      · rcases h3 u hu with hut | huE | huW
        · exact Or.inl (by simp [hut])
        · exact Or.inr (Or.inl huE)
        · exact Or.inr (Or.inr huW)

/-- A `Sequence` built by the constructor from two or more elements is a
`Sequence` object, never the `WILDCARD` singleton. -/
theorem seqNew_not_wildcard (a b : RC) (rest : List RC)
    (lbs : Option (List LineBreak)) :
    structEq (seqNew (a :: b :: rest) lbs) WILDCARD = false := by
  simp only [seqNew]
  split
  · simp [structEq, RC.normalize, WILDCARD]
  · simp [structEq, RC.normalize, WILDCARD]

/-- Under the invariant, a `Sequence` built by the constructor from two or
more nodes at hand is never structurally empty: when every element is
`EMPTY` the skipped snapshot keeps the original (nonempty) children, and
otherwise the fold keeps a child for the non-`EMPTY` element — the only
structurally-empty node at hand being the `EMPTY` singleton itself. -/
theorem seqNew_not_empty {t : InternTable} {reach : List RC}
    (hinv : InternInv t reach) (a b : RC) (rest : List RC)
    (lbs : Option (List LineBreak))
    (hmem : ∀ c ∈ a :: b :: rest, c ∈ reach) :
    structEq (seqNew (a :: b :: rest) lbs) EMPTY = false := by
  simp only [seqNew]
  split
  · simp [structEq, RC.normalize, RC.normalizeList, EMPTY]
  next hall =>
    have hne : (seqFold (zipLongestLB (a :: b :: rest)
        (lbs.getD (List.replicate (rest.length + 1)
          LineBreak.DEFAULT)))).1 ≠ [] := by
      intro hnil
      have hex : ∃ c, c ∈ a :: b :: rest ∧ ¬ c = EMPTY := by
        by_contra hno
        push_neg at hno
        exact hall (List.all_eq_true.mpr
          (fun c hc => decide_eq_true (hno c hc)))
      obtain ⟨c0, hc0m, hc0ne⟩ := hex
      obtain ⟨lb0, hmemz⟩ := mem_zipLongestLB (a :: b :: rest)
        (lbs.getD (List.replicate (rest.length + 1)
          LineBreak.DEFAULT)) c0 hc0m
      have hEq := seqFold_nil_all_empty _ hnil (c0, lb0) hmemz
      exact hc0ne (hinv.1 c0 (hmem c0 hc0m) EMPTY hinv.2.2.2.1 hEq)
    simp [structEq, RC.normalize, RC.normalizeList, EMPTY,
      normalizeList_eq_nil, hne]

/-- Constructor-call arguments whose AST-node arguments are all drawn from
`reach`: a running program can only pass nodes it has already obtained. -/
inductive ArgsFrom (reach : List RC) : CArgs → Prop where
  | literal (s : String) : ArgsFrom reach (.literal s)
  | range (x y : String) : ArgsFrom reach (.range x y)
  | charset (s : String) : ArgsFrom reach (.charset s)
  | reference (m : Nat) (n : String) : ArgsFrom reach (.reference m n)
  | doc (s : String) : ArgsFrom reach (.doc s)
  | wildcard : ArgsFrom reach .wildcard
  | negation (c : RC) (h : c ∈ reach) : ArgsFrom reach (.negation c)
  | zeroPlus (c : RC) (h : c ∈ reach) : ArgsFrom reach (.zeroPlus c)
  | onePlus (c : RC) (h : c ∈ reach) : ArgsFrom reach (.onePlus c)
  | sequence (cs : List RC) (lbs : Option (List LineBreak))
      (h : ∀ c ∈ cs, c ∈ reach) : ArgsFrom reach (.sequence cs lbs)
  | alternative (cs : List RC) (h : ∀ c ∈ cs, c ∈ reach) :
      ArgsFrom reach (.alternative cs)

/-- The states a program can drive the intern table into: starting from the
empty table with only the module-level singletons at hand, each constructor
call draws its node arguments from the nodes obtained so far and adds its
result to them. -/
inductive Constructed : InternTable → List RC → Prop where
  | init : Constructed [] [EMPTY, WILDCARD]
  | step {t : InternTable} {reach : List RC} {a : CArgs} :
      Constructed t reach → ArgsFrom reach a →
      Constructed (construct a t).2 ((construct a t).1 :: reach)

/-- Every reachable intern-table state satisfies the invariant. -/
theorem constructed_inv {t : InternTable} {reach : List RC}
    (h : Constructed t reach) : InternInv t reach := by
  induction h with
  | init => exact ⟨by decide, by decide, by decide, by decide, by decide⟩
  | step hc ha ih =>
    cases ha with
    | literal s =>
      simp only [construct]
      exact ih.register
        (by simp [structEq, RC.normalize, RC.normalizeList, EMPTY])
        (by simp [structEq, RC.normalize, WILDCARD])
    | range x y =>
      simp only [construct]
      exact ih.register
        (by simp [structEq, RC.normalize, RC.normalizeList, EMPTY])
        (by simp [structEq, RC.normalize, WILDCARD])
    | charset s =>
      simp only [construct]
      exact ih.register
        (by simp [structEq, RC.normalize, RC.normalizeList, EMPTY])
        (by simp [structEq, RC.normalize, WILDCARD])
    | reference m n =>
      simp only [construct]
      exact ih.register
        (by simp [structEq, RC.normalize, RC.normalizeList, EMPTY])
        (by simp [structEq, RC.normalize, WILDCARD])
    | doc s =>
      simp only [construct]
      exact ih.register
        (by simp [structEq, RC.normalize, RC.normalizeList, EMPTY])
        (by simp [structEq, RC.normalize, WILDCARD])
    | wildcard => simpa only [construct] using ih.reuse ih.2.2.2.2
    | negation c _hc =>
      simp only [construct]
      exact ih.register
        (by simp [structEq, RC.normalize, RC.normalizeList, EMPTY])
        (by simp [structEq, RC.normalize, WILDCARD])
    | zeroPlus c hcm =>
      by_cases hE : c = EMPTY
      · simpa only [construct, if_pos hE] using ih.reuse hcm
      · simp only [construct, if_neg hE]
        exact ih.register
          (by simp [structEq, RC.normalize, RC.normalizeList, EMPTY])
          (by simp [structEq, RC.normalize, WILDCARD])
    | onePlus c hcm =>
      by_cases hE : c = EMPTY
      · simpa only [construct, if_pos hE] using ih.reuse hcm
      · simp only [construct, if_neg hE]
        exact ih.register
          (by simp [structEq, RC.normalize, RC.normalizeList, EMPTY])
          (by simp [structEq, RC.normalize, WILDCARD])
    | sequence cs lbs hcm =>
      cases cs with
      | nil => simpa only [construct] using ih.reuse ih.2.2.2.1
      | cons a cs1 =>
        cases cs1 with
        | nil => simpa only [construct] using ih.reuse (hcm a (by simp))
        | cons b rest =>
          simp only [construct]
          exact ih.register (seqNew_not_empty ih a b rest lbs hcm)
            (seqNew_not_wildcard a b rest lbs)
    | alternative cs hcm =>
      cases cs with
      | nil => simpa only [construct] using ih.reuse ih.2.2.2.1
      | cons a cs1 =>
        cases cs1 with
        | nil => simpa only [construct] using ih.reuse (hcm a (by simp))
        | cons b rest =>
          simp only [construct]
          exact ih.register
            (by simp [altNew, structEq, RC.normalize, RC.normalizeList,
              EMPTY])
            (by simp [altNew, structEq, RC.normalize, WILDCARD])

/-- Claim C3: in every state a running program can reach — starting from the
empty intern table with the module-level `EMPTY` and `WILDCARD` singletons at
hand, each constructor call drawing its node arguments from the nodes
obtained so far — structurally equal nodes at hand are the identical node;
repeating any constructor call with the same arguments returns the identical
object; `Wildcard()` always returns the `WILDCARD` singleton and
`Sequence(())` always returns the `EMPTY` singleton. -/
theorem c3_structural_identity (t : InternTable) (reach : List RC)
    (h : Constructed t reach) :
    (∀ u ∈ reach, ∀ v ∈ reach, structEq u v = true → u = v)
      ∧ (∀ (a : CArgs) (t2 : InternTable),
          (construct a (construct a t2).2).1 = (construct a t2).1)
      ∧ (∀ t2, (construct .wildcard t2).1 = WILDCARD)
      ∧ (∀ lbs t2, (construct (.sequence [] lbs) t2).1 = EMPTY) := by
  refine ⟨(constructed_inv h).1, fun a t2 => ?_, fun _ => rfl,
    fun _ _ => rfl⟩
  cases a with
  | literal s => exact intern_stable _ _
  | range x y => exact intern_stable _ _
  | charset s => exact intern_stable _ _
  | reference m n => exact intern_stable _ _
  | doc s => exact intern_stable _ _
  | wildcard => rfl
  | negation c => exact intern_stable _ _
  | zeroPlus c =>
    by_cases hE : c = EMPTY
    · simp [construct, hE]
    · simp [construct, hE, intern_stable]
  | onePlus c =>
    by_cases hE : c = EMPTY
    · simp [construct, hE]
    · simp [construct, hE, intern_stable]
  | sequence cs lbs =>
    match cs with
    | [] => rfl
    | [c] => rfl
    | a :: b :: rest => exact intern_stable _ _
  | alternative cs =>
    match cs with
    | [] => rfl
    | [c] => rfl
    | a :: b :: rest => exact intern_stable _ _

/-- Claim C3 witness: constructing `Literal("x")` twice from the fresh state
returns the identical node — the two results are at hand in the reached
state and structurally equal, hence identical. -/
theorem c3_structural_identity_witness :
    (construct (CArgs.literal "x")
        (construct (CArgs.literal "x") ([] : InternTable)).2).1
      = (construct (CArgs.literal "x") ([] : InternTable)).1 :=
  (c3_structural_identity _ _
      (Constructed.step
        (Constructed.step Constructed.init (ArgsFrom.literal "x"))
        (ArgsFrom.literal "x"))).1
    _ (List.mem_cons_self _ _)
    _ (List.mem_cons_of_mem _ (List.mem_cons_self _ _))
    (by decide)

/-! ## Grammar model: rules, models, lookup over the import graph -/

/-- `RuleBase` (with the `LexerRule`/`ParserRule` split carried by `isLexer`
and the lexer-only flags).  `rid` stands for the object identity of the rule:
distinct rule objects carry distinct `rid`s. -/
structure Rule where
  rid : Nat
  name : String
  displayName : Option String := none
  modelId : Nat := 0
  posFile : String := ""
  posLine : Nat := 0
  content : Option RC := none
  isNodoc : Bool := false
  isNoDiagram : Bool := false
  cssClass : Option String := none
  isInline : Bool := false
  keepDiagramRecursive : Bool := false
  importance : Int := 1
  documentation : Option (List (Nat × String)) := none
  isLexer : Bool := false
  isLiteral : Bool := false
  isFragment : Bool := false
deriving DecidableEq

/-- `ModelImpl`: name-keyed rule collections plus the imported model ids. -/
structure ModelS where
  mid : Nat
  name : String := ""
  imports : List Nat := []
  terminals : List Rule := []
  nonTerminals : List Rule := []
deriving DecidableEq

/-- The loaded-model universe: the `Reference.model` / import edges point into
this list by model id. -/
abbrev Ctx := List ModelS

/-- A Python dict built as `{t.name: t for t in rs}`: on duplicate names the
last entry wins. -/
def dictGet (rs : List Rule) (n : String) : Option Rule :=
  (rs.filter (fun r => r.name = n)).getLast?

/-- `ModelImpl.lookup_local`: probe non-terminals first, then terminals. -/
def lookupLocal (m : ModelS) (n : String) : Option Rule :=
  match dictGet m.nonTerminals n with
  | some r => some r
  | none => dictGet m.terminals n

/-- Resolve a model id inside the loaded-model universe. -/
def getModel (ctx : Ctx) (mid : Nat) : Option ModelS :=
  ctx.find? (fun m => m.mid = mid)

/-- `Model.lookup` fused with `Model.iter_import_tree`: worklist plus visited
set; pop a model, skip it when already visited, return its local hit if any,
else push its not-yet-queued imports.  (The Python worklist is a `set` with
unspecified pop order; this embedding pops from the front.)  The fuel argument
makes the traversal of a cyclic import graph structurally terminating. -/
def lookupAux (ctx : Ctx) (n : String) :
    Nat → List Nat → List Nat → Option Rule
  | 0, _, _ => none
  | _ + 1, [], _ => none
  | f + 1, mid :: rest, visited =>
    if mid ∈ visited then lookupAux ctx n f rest visited
    else
      match getModel ctx mid with
      | none => lookupAux ctx n f rest (mid :: visited)
      | some m =>
        match lookupLocal m n with
        | some r => some r
        | none =>
            lookupAux ctx n f
              (rest ++ m.imports.filter (fun i => ¬ (i ∈ rest)))
              (mid :: visited)

/-- Fuel large enough to exhaust the worklist: one initial entry plus at most
`imports` insertions per model, with slack. -/
def ctxFuel (ctx : Ctx) : Nat :=
  2 + ctx.length + ctx.foldl (fun a m => a + m.imports.length) 0

/-- `Model.lookup(name)` on the model with id `mid`. -/
def lookup (ctx : Ctx) (mid : Nat) (n : String) : Option Rule :=
  lookupAux ctx n (ctxFuel ctx) [mid] []

/-- `Reference.get_reference`: resolve a reference through the lookup of the
model it was created in. -/
def getReference (ctx : Ctx) (mid : Nat) (n : String) : Option Rule :=
  lookup ctx mid n

/-- Claim C10: a rule found by `lookup_local` is returned by `lookup` — the
import-tree iteration starts from a worklist holding only the model itself, so
the first yielded model is always the model itself and a local definition
shadows every same-named definition in imported models. -/
theorem c10_lookup_local_priority (ctx : Ctx) (m : ModelS) (n : String)
    (r : Rule)
    (hm : getModel ctx m.mid = some m)
    (hl : lookupLocal m n = some r) :
    lookup ctx m.mid n = some r := by
  obtain ⟨f, hf⟩ : ∃ f, ctxFuel ctx = f + 1 :=
    ⟨ctxFuel ctx - 1, by unfold ctxFuel; omega⟩
  unfold lookup
  rw [hf]
  simp [lookupAux, hm, hl]

def c10RuleLocal : Rule := { rid := 10, name := "x", modelId := 0 }

def c10RuleImported : Rule := { rid := 11, name := "x", modelId := 1 }

def c10ModelMain : ModelS := { mid := 0, imports := [1], nonTerminals := [c10RuleLocal] }

def c10ModelImported : ModelS := { mid := 1, nonTerminals := [c10RuleImported] }

def c10Ctx : Ctx := [c10ModelMain, c10ModelImported]

/-- Claim C10 witness: with a same-named rule in an imported model, lookup
returns the locally declared rule. -/
theorem c10_lookup_local_priority_witness :
    lookup c10Ctx 0 "x" = some c10RuleLocal :=
  c10_lookup_local_priority c10Ctx c10ModelMain "x" c10RuleLocal
    (by decide) (by decide)

/-! ## Reachability finder (`reachable_finder.py`) -/

mutual

/-- Reference occurrences of a content tree: the `(model, name)` pairs of all
`Reference` nodes; composite nodes union their children, atoms contribute
nothing (the shape of the `_ReachableFiner` visitor). -/
def refsRC : RC → List (Nat × String)
  | .literal _ => []
  | .range _ _ => []
  | .charset _ => []
  | .doc _ => []
  | .wildcard => []
  | .reference m n => [(m, n)]
  | .negation c => refsRC c
  | .zeroPlus c => refsRC c
  | .onePlus c => refsRC c
  | .sequence cs _ _ => refsList cs
  | .alternative cs => refsList cs

/-- Reference occurrences of a list of children. -/
def refsList : List RC → List (Nat × String)
  | [] => []
  | c :: cs => refsRC c ++ refsList cs

end

mutual

/-- `_ReachableFiner.visit`: walk a content tree and return the pair of the
collected rule ids and the updated `_seen` set.  On a `Reference`, resolve it;
a dangling or already-seen target contributes nothing, otherwise the target is
marked seen, collected, and its body (if any) is visited with the updated
`_seen`.  The fuel only decreases when a new rule is entered, so any fuel
larger than the number of rules is enough. -/
def rvisit (ctx : Ctx) (fuel : Nat) (seen : List Nat) :
    RC → List Nat × List Nat
  | .literal _ => ([], seen)
  | .range _ _ => ([], seen)
  | .charset _ => ([], seen)
  | .doc _ => ([], seen)
  | .wildcard => ([], seen)
  | .negation c => rvisit ctx fuel seen c
  | .zeroPlus c => rvisit ctx fuel seen c
  | .onePlus c => rvisit ctx fuel seen c
  | .sequence cs _ _ => rvisitList ctx fuel seen cs
  | .alternative cs => rvisitList ctx fuel seen cs
  | .reference m n =>
    match getReference ctx m n with
    | none => ([], seen)
    | some tgt =>
      if tgt.rid ∈ seen then ([], seen)
      else
        match fuel with
        | 0 => ([], seen)
        | f + 1 =>
          match tgt.content with
          | none => ([tgt.rid], tgt.rid :: seen)
          | some body =>
            let p := rvisit ctx f (tgt.rid :: seen) body
            (tgt.rid :: p.1, p.2)
termination_by c => (fuel, sizeOf c)
decreasing_by
  all_goals simp_wf
  all_goals first
    | (apply Prod.Lex.left; omega)
    | (apply Prod.Lex.right; omega)

/-- Union of the children's results, threading the `_seen` set left to
right. -/
def rvisitList (ctx : Ctx) (fuel : Nat) (seen : List Nat) :
    List RC → List Nat × List Nat
  | [] => ([], seen)
  | c :: cs =>
    let p := rvisit ctx fuel seen c
    let q := rvisitList ctx fuel p.2 cs
    (p.1 ++ q.1, q.2)
termination_by cs => (fuel, sizeOf cs)
decreasing_by
  all_goals simp_wf
  all_goals first
    | (apply Prod.Lex.left; omega)
    | (apply Prod.Lex.right; omega)

end

/-- `find_reachable_rules`: the root's id plus everything collected from its
body (a rule without a body contributes just itself). -/
def findReachable (ctx : Ctx) (fuel : Nat) (r : Rule) : List Nat :=
  match r.content with
  | none => [r.rid]
  | some c => r.rid :: (rvisit ctx fuel [] c).1

/-- All rule objects of the loaded-model universe. -/
def rulesOf (ctx : Ctx) : List Rule :=
  ctx.flatMap (fun m => m.terminals ++ m.nonTerminals)

/-- Transitive reachability through references starting from the reference
occurrences `rs`: the targets of `rs` themselves, plus targets of references
in the bodies of already-reached rules, always resolving through the model
lookup. -/
inductive RFC (ctx : Ctx) (rs : List (Nat × String)) : Rule → Prop where
  | direct {m : Nat} {n : String} {tgt : Rule} :
      (m, n) ∈ rs → getReference ctx m n = some tgt → RFC ctx rs tgt
  | step {mid : Rule} {b : RC} {m : Nat} {n : String} {tgt : Rule} :
      RFC ctx rs mid → mid.content = some b → (m, n) ∈ refsRC b →
      getReference ctx m n = some tgt → RFC ctx rs tgt

/-- Rules transitively reachable from a root rule through `Reference` nodes
that resolve via the model's lookup, including the root itself. -/
inductive ReachF (ctx : Ctx) (root : Rule) : Rule → Prop where
  | here : ReachF ctx root root
  | step {mid : Rule} {b : RC} {m : Nat} {n : String} {tgt : Rule} :
      ReachF ctx root mid → mid.content = some b → (m, n) ∈ refsRC b →
      getReference ctx m n = some tgt → ReachF ctx root tgt

mutual

/-- The `_seen` set only grows, and the collected ids are exactly the ids
newly added to `_seen` during the visit. -/
theorem rvisit_spec (ctx : Ctx) (fuel : Nat) (seen : List Nat) (c : RC) :
    (∀ i ∈ seen, i ∈ (rvisit ctx fuel seen c).2)
      ∧ (∀ i, i ∈ (rvisit ctx fuel seen c).1
          ↔ i ∈ (rvisit ctx fuel seen c).2 ∧ i ∉ seen) := by
  cases c with
  | literal s => simp [rvisit]
  | range a b => simp [rvisit]
  | charset s => simp [rvisit]
  | doc v => simp [rvisit]
  | wildcard => simp [rvisit]
  | negation c => simpa [rvisit] using rvisit_spec ctx fuel seen c
  | zeroPlus c => simpa [rvisit] using rvisit_spec ctx fuel seen c
  | onePlus c => simpa [rvisit] using rvisit_spec ctx fuel seen c
  | sequence cs ls t => simpa [rvisit] using rvisitList_spec ctx fuel seen cs
  | alternative cs => simpa [rvisit] using rvisitList_spec ctx fuel seen cs
  | reference m n =>
    rw [rvisit]
    cases hres : getReference ctx m n with
    | none => simp
    | some tgt =>
      simp only []
      by_cases hseen : tgt.rid ∈ seen
      · simp [hseen]
      · simp only [if_neg hseen]
        cases fuel with
        | zero => simp
        | succ f =>
          cases hcont : tgt.content with
          | none =>
            simp only []
            constructor
            · intro i hi; simp [hi]
            · intro i
              constructor
              · intro hi
                simp only [List.mem_singleton] at hi
                subst hi
                simp [hseen]
              · rintro ⟨hi, hns⟩
                simp only [List.mem_cons] at hi
                rcases hi with h | h
                · simp [h]
                · exact absurd h hns
          | some body =>
            simp only []
            obtain ⟨hmono, hiff⟩ := rvisit_spec ctx f (tgt.rid :: seen) body
            constructor
            · intro i hi
              exact hmono i (by simp [hi])
            · intro i
              constructor
              · intro hi
                simp only [List.mem_cons] at hi
                rcases hi with h | h
                · subst h
                  exact ⟨hmono tgt.rid (by simp), hseen⟩
                · obtain ⟨h2, h3⟩ := (hiff i).1 h
                  exact ⟨h2, fun hx => h3 (by simp [hx])⟩
              · rintro ⟨hi, hns⟩
                by_cases hit : i = tgt.rid
                · simp [hit]
                · have : i ∈ (rvisit ctx f (tgt.rid :: seen) body).1 := by
                    refine (hiff i).2 ⟨hi, ?_⟩
                    simp only [List.mem_cons, not_or]
                    exact ⟨hit, hns⟩
                  simp [this]
termination_by (fuel, sizeOf c)
decreasing_by
  all_goals simp_wf
  all_goals first
    | (apply Prod.Lex.left; omega)
    | (apply Prod.Lex.right; omega)

/-- List version of `rvisit_spec`. -/
theorem rvisitList_spec (ctx : Ctx) (fuel : Nat) (seen : List Nat)
    (cs : List RC) :
    (∀ i ∈ seen, i ∈ (rvisitList ctx fuel seen cs).2)
      ∧ (∀ i, i ∈ (rvisitList ctx fuel seen cs).1
          ↔ i ∈ (rvisitList ctx fuel seen cs).2 ∧ i ∉ seen) := by
  cases cs with
  | nil => simp [rvisitList]
  | cons c cs =>
    rw [rvisitList]
    obtain ⟨hm1, hi1⟩ := rvisit_spec ctx fuel seen c
    obtain ⟨hm2, hi2⟩ :=
      rvisitList_spec ctx fuel (rvisit ctx fuel seen c).2 cs
    constructor
    · intro i hi
      exact hm2 i (hm1 i hi)
    · intro i
      simp only [List.mem_append]
      constructor
      · rintro (h | h)
        · obtain ⟨h2, h3⟩ := (hi1 i).1 h
          exact ⟨hm2 i h2, h3⟩
        · obtain ⟨h2, h3⟩ := (hi2 i).1 h
          exact ⟨h2, fun hx => h3 (hm1 i hx)⟩
      · rintro ⟨hi, hns⟩
        by_cases hmid : i ∈ (rvisit ctx fuel seen c).2
        · exact Or.inl ((hi1 i).2 ⟨hmid, hns⟩)
        · exact Or.inr ((hi2 i).2 ⟨hi, hmid⟩)
termination_by (fuel, sizeOf cs)
decreasing_by
  all_goals simp_wf
  all_goals first
    | (apply Prod.Lex.left; omega)
    | (apply Prod.Lex.right; omega)

end

theorem dictGet_mem {rs : List Rule} {n : String} {r : Rule}
    (h : dictGet rs n = some r) : r ∈ rs := by
  unfold dictGet at h
  exact List.mem_of_mem_filter (List.mem_of_mem_getLast? h)

theorem lookupLocal_mem {m : ModelS} {n : String} {r : Rule}
    (h : lookupLocal m n = some r) : r ∈ m.terminals ++ m.nonTerminals := by
  unfold lookupLocal at h
  cases hnt : dictGet m.nonTerminals n with
  | some r' =>
    rw [hnt] at h
    cases h
    exact List.mem_append_right _ (dictGet_mem hnt)
  | none =>
    rw [hnt] at h
    exact List.mem_append_left _ (dictGet_mem h)

theorem lookupAux_mem {ctx : Ctx} {n : String} {r : Rule} :
    ∀ {fuel : Nat} {wl visited : List Nat},
      lookupAux ctx n fuel wl visited = some r → r ∈ rulesOf ctx := by
  intro fuel
  induction fuel with
  | zero => intro wl visited h; simp [lookupAux] at h
  | succ f ih =>
    intro wl visited h
    match wl with
    | [] => simp [lookupAux] at h
    | mid :: rest =>
      rw [lookupAux] at h
      by_cases hv : mid ∈ visited
      · rw [if_pos hv] at h
        exact ih h
      · rw [if_neg hv] at h
        split at h
        next hm => exact ih h
        next m hm =>
          split at h
          next r' hl =>
            cases h
            have hmem : m ∈ ctx := List.mem_of_find?_eq_some hm
            have := lookupLocal_mem hl
            simp only [rulesOf, List.mem_flatMap]
            exact ⟨m, hmem, this⟩
          next hl => exact ih h

theorem getReference_mem {ctx : Ctx} {m : Nat} {n : String} {r : Rule}
    (h : getReference ctx m n = some r) : r ∈ rulesOf ctx :=
  lookupAux_mem h

theorem RFC.mono {ctx : Ctx} {rs rs' : List (Nat × String)} {tgt : Rule}
    (h : RFC ctx rs' tgt) (hsub : ∀ p ∈ rs', p ∈ rs) : RFC ctx rs tgt := by
  induction h with
  | direct hmn hres => exact .direct (hsub _ hmn) hres
  | step _ hb hmn hres ih => exact .step ih hb hmn hres

theorem RFC.compose {ctx : Ctx} {rs : List (Nat × String)} {mid : Rule}
    {b : RC} {tgt : Rule} (hmid : RFC ctx rs mid)
    (hcont : mid.content = some b) (h : RFC ctx (refsRC b) tgt) :
    RFC ctx rs tgt := by
  induction h with
  | direct hmn hres => exact .step hmid hcont hmn hres
  | step _ hb hmn hres ih => exact .step ih hb hmn hres

mutual

/-- Soundness: every collected rule id belongs to a rule reachable through the
references of the visited content. -/
theorem rvisit_sound (ctx : Ctx) (fuel : Nat) (seen : List Nat) (c : RC) :
    ∀ i ∈ (rvisit ctx fuel seen c).1,
      ∃ tgt, RFC ctx (refsRC c) tgt ∧ tgt.rid = i ∧ tgt ∈ rulesOf ctx := by
  cases c with
  | literal s => simp [rvisit]
  | range a b => simp [rvisit]
  | charset s => simp [rvisit]
  | doc v => simp [rvisit]
  | wildcard => simp [rvisit]
  | negation c => simpa [rvisit, refsRC] using rvisit_sound ctx fuel seen c
  | zeroPlus c => simpa [rvisit, refsRC] using rvisit_sound ctx fuel seen c
  | onePlus c => simpa [rvisit, refsRC] using rvisit_sound ctx fuel seen c
  | sequence cs ls t =>
    simpa [rvisit, refsRC] using rvisitList_sound ctx fuel seen cs
  | alternative cs =>
    simpa [rvisit, refsRC] using rvisitList_sound ctx fuel seen cs
  | reference m n =>
    rw [rvisit]
    cases hres : getReference ctx m n with
    | none => simp
    | some tgt =>
      simp only []
      by_cases hseen : tgt.rid ∈ seen
      · simp [hseen]
      · simp only [if_neg hseen]
        cases fuel with
        | zero => simp
        | succ f =>
          have hdirect : RFC ctx (refsRC (.reference m n)) tgt :=
            .direct (by simp [refsRC]) hres
          cases hcont : tgt.content with
          | none =>
            simp only [List.mem_singleton]
            rintro i rfl
            exact ⟨tgt, hdirect, rfl, getReference_mem hres⟩
          | some body =>
            simp only [List.mem_cons]
            rintro i (rfl | hi)
            · exact ⟨tgt, hdirect, rfl, getReference_mem hres⟩
            · obtain ⟨tgt', h1, h2, h3⟩ :=
                rvisit_sound ctx f (tgt.rid :: seen) body i hi
              exact ⟨tgt', RFC.compose hdirect hcont h1, h2, h3⟩
termination_by (fuel, sizeOf c)
decreasing_by
  all_goals simp_wf
  all_goals first
    | (apply Prod.Lex.left; omega)
    | (apply Prod.Lex.right; omega)

/-- List version of `rvisit_sound`. -/
theorem rvisitList_sound (ctx : Ctx) (fuel : Nat) (seen : List Nat)
    (cs : List RC) :
    ∀ i ∈ (rvisitList ctx fuel seen cs).1,
      ∃ tgt, RFC ctx (refsList cs) tgt ∧ tgt.rid = i ∧ tgt ∈ rulesOf ctx := by
  cases cs with
  | nil => simp [rvisitList]
  | cons c cs =>
    rw [rvisitList]
    simp only [List.mem_append]
    rintro i (hi | hi)
    · obtain ⟨tgt, h1, h2, h3⟩ := rvisit_sound ctx fuel seen c i hi
      refine ⟨tgt, RFC.mono h1 ?_, h2, h3⟩
      intro p hp
      simp [refsList, hp]
    · obtain ⟨tgt, h1, h2, h3⟩ :=
        rvisitList_sound ctx fuel (rvisit ctx fuel seen c).2 cs i hi
      refine ⟨tgt, RFC.mono h1 ?_, h2, h3⟩
      intro p hp
      simp [refsList, hp]
termination_by (fuel, sizeOf cs)
decreasing_by
  all_goals simp_wf
  all_goals first
    | (apply Prod.Lex.left; omega)
    | (apply Prod.Lex.right; omega)

end

/-- Rule-object identity: distinct rule objects carry distinct `rid`s. -/
abbrev RidInj (ctx : Ctx) : Prop :=
  ∀ r1 ∈ rulesOf ctx, ∀ r2 ∈ rulesOf ctx, r1.rid = r2.rid → r1 = r2

/-- Number of rules of the universe not yet in the `_seen` set. -/
def unseenCnt (ctx : Ctx) (seen : List Nat) : Nat :=
  ((rulesOf ctx).filter (fun r => r.rid ∉ seen)).length

theorem filter_length_mono {α : Type} {l : List α} {p q : α → Bool}
    (h : ∀ r ∈ l, p r = true → q r = true) :
    (l.filter p).length ≤ (l.filter q).length := by
  induction l with
  | nil => simp
  | cons a l ih =>
    have ih' := ih (fun r hr hpr => h r (by simp [hr]) hpr)
    by_cases hp : p a = true
    · have hq := h a (by simp) hp
      simp [List.filter_cons, hp, hq]
      omega
    · simp only [List.filter_cons, Bool.not_eq_true] at hp ⊢
      rw [hp]
      simp only [Bool.false_eq_true, if_false]
      by_cases hq : q a = true
      · simp [hq]; omega
      · simp only [Bool.not_eq_true] at hq
        rw [hq]
        simpa using ih'

theorem unseenCnt_mono {ctx : Ctx} {seen seen' : List Nat}
    (h : ∀ i ∈ seen, i ∈ seen') :
    unseenCnt ctx seen' ≤ unseenCnt ctx seen := by
  apply filter_length_mono
  intro r _ hr
  simp only [decide_eq_true_eq] at hr ⊢
  intro hmem
  exact hr (h _ hmem)

theorem filter_length_lt {l : List Rule} {seen : List Nat} {tgt : Rule}
    (hmem : tgt ∈ l) (hns : tgt.rid ∉ seen) :
    (l.filter (fun r => r.rid ∉ tgt.rid :: seen)).length
      < (l.filter (fun r => r.rid ∉ seen)).length := by
  have hsub : ∀ r : Rule, (decide (r.rid ∉ tgt.rid :: seen) = true) →
      (decide (r.rid ∉ seen) = true) := by
    intro r hr
    simp only [decide_eq_true_eq, List.mem_cons, not_or] at hr ⊢
    exact hr.2
  induction l with
  | nil => simp at hmem
  | cons a l ih =>
    simp only [List.mem_cons] at hmem
    rcases hmem with rfl | hmem
    · have h1 : decide (tgt.rid ∉ tgt.rid :: seen) = false := by simp
      have h2 : decide (tgt.rid ∉ seen) = true := by simpa using hns
      simp only [List.filter_cons, h1, h2, Bool.false_eq_true, if_false,
        if_true, List.length_cons]
      have := filter_length_mono (l := l)
        (p := fun r => decide (r.rid ∉ tgt.rid :: seen))
        (q := fun r => decide (r.rid ∉ seen)) (fun r _ => hsub r)
      omega
    · have ihl := ih hmem
      simp only [List.filter_cons]
      by_cases hp : (decide (a.rid ∉ tgt.rid :: seen)) = true
      · rw [hp, hsub a hp]
        simpa using ihl
      · simp only [Bool.not_eq_true] at hp
        rw [hp]
        by_cases hq : (decide (a.rid ∉ seen)) = true
        · rw [hq]
          simp only [Bool.false_eq_true, if_false, if_true, List.length_cons]
          omega
        · simp only [Bool.not_eq_true] at hq
          rw [hq]
          simpa using ihl

theorem unseenCnt_lt {ctx : Ctx} {seen : List Nat} {tgt : Rule}
    (hmem : tgt ∈ rulesOf ctx) (hns : tgt.rid ∉ seen) :
    unseenCnt ctx (tgt.rid :: seen) < unseenCnt ctx seen :=
  filter_length_lt hmem hns

mutual

/-- Completeness invariant: after a visit, (a) the target of every reference
of the visited content is in the final `_seen` set, and (b) every rule whose
id newly entered `_seen` has been fully processed — the targets of the
references of its body are in the final `_seen` set as well. -/
theorem rvisit_complete (ctx : Ctx) (fuel : Nat) (seen : List Nat) (c : RC)
    (hinj : RidInj ctx) (hfuel : unseenCnt ctx seen < fuel) :
    (∀ m n, (m, n) ∈ refsRC c → ∀ tgt, getReference ctx m n = some tgt →
        tgt.rid ∈ (rvisit ctx fuel seen c).2)
    ∧ (∀ i ∈ (rvisit ctx fuel seen c).2, i ∉ seen →
        ∀ tgt ∈ rulesOf ctx, tgt.rid = i →
          ∀ b, tgt.content = some b →
            ∀ m n, (m, n) ∈ refsRC b →
              ∀ tgt', getReference ctx m n = some tgt' →
                tgt'.rid ∈ (rvisit ctx fuel seen c).2) := by
  cases c with
  | literal s =>
    refine ⟨fun m n hmn => by simp [refsRC] at hmn, fun i hi hni => ?_⟩
    simp only [rvisit] at hi
    exact absurd hi hni
  | range a b =>
    refine ⟨fun m n hmn => by simp [refsRC] at hmn, fun i hi hni => ?_⟩
    simp only [rvisit] at hi
    exact absurd hi hni
  | charset s =>
    refine ⟨fun m n hmn => by simp [refsRC] at hmn, fun i hi hni => ?_⟩
    simp only [rvisit] at hi
    exact absurd hi hni
  | doc v =>
    refine ⟨fun m n hmn => by simp [refsRC] at hmn, fun i hi hni => ?_⟩
    simp only [rvisit] at hi
    exact absurd hi hni
  | wildcard =>
    refine ⟨fun m n hmn => by simp [refsRC] at hmn, fun i hi hni => ?_⟩
    simp only [rvisit] at hi
    exact absurd hi hni
  | negation c =>
    simpa [rvisit, refsRC] using rvisit_complete ctx fuel seen c hinj hfuel
  | zeroPlus c =>
    simpa [rvisit, refsRC] using rvisit_complete ctx fuel seen c hinj hfuel
  | onePlus c =>
    simpa [rvisit, refsRC] using rvisit_complete ctx fuel seen c hinj hfuel
  | sequence cs ls t =>
    simpa [rvisit, refsRC] using
      rvisitList_complete ctx fuel seen cs hinj hfuel
  | alternative cs =>
    simpa [rvisit, refsRC] using
      rvisitList_complete ctx fuel seen cs hinj hfuel
  | reference m n =>
    rw [rvisit]
    cases hres : getReference ctx m n with
    | none =>
      simp only []
      refine ⟨fun m' n' hmn tgt hres' => ?_, fun i hi hni => ?_⟩
      · simp only [refsRC, List.mem_singleton, Prod.mk.injEq] at hmn
        obtain ⟨rfl, rfl⟩ := hmn
        rw [hres] at hres'
        exact absurd hres' (by simp)
      · exact absurd hi hni
    | some tgt =>
      simp only []
      by_cases hseen : tgt.rid ∈ seen
      · simp only [if_pos hseen]
        refine ⟨fun m' n' hmn tgt2 hres2 => ?_, fun i hi hni => ?_⟩
        · simp only [refsRC, List.mem_singleton, Prod.mk.injEq] at hmn
          obtain ⟨rfl, rfl⟩ := hmn
          rw [hres] at hres2
          obtain rfl := Option.some.inj hres2
          exact hseen
        · exact absurd hi hni
      · simp only [if_neg hseen]
        cases fuel with
        | zero => exact absurd hfuel (Nat.not_lt_zero _)
        | succ f =>
          have htgtmem : tgt ∈ rulesOf ctx := getReference_mem hres
          cases hcont : tgt.content with
          | none =>
            simp only []
            refine ⟨fun m' n' hmn tgt2 hres2 => ?_,
              fun i hi hni tgt2 htm2 hrid b hb => ?_⟩
            · simp only [refsRC, List.mem_singleton, Prod.mk.injEq] at hmn
              obtain ⟨rfl, rfl⟩ := hmn
              rw [hres] at hres2
              obtain rfl := Option.some.inj hres2
              simp
            · simp only [List.mem_cons] at hi
              rcases hi with rfl | hi
              · have : tgt2 = tgt := hinj tgt2 htm2 tgt htgtmem hrid
                subst this
                rw [hcont] at hb
                exact absurd hb (by simp)
              · exact absurd hi hni
          | some body =>
            simp only []
            have hfuel2 : unseenCnt ctx (tgt.rid :: seen) < f := by
              have := unseenCnt_lt htgtmem hseen
              omega
            obtain ⟨hain, hbin⟩ :=
              rvisit_complete ctx f (tgt.rid :: seen) body hinj hfuel2
            have hmono := (rvisit_spec ctx f (tgt.rid :: seen) body).1
            refine ⟨fun m' n' hmn tgt2 hres2 => ?_,
              fun i hi hni tgt2 htm2 hrid b hb m2 n2 hmn2 tgt3 hres3 => ?_⟩
            · simp only [refsRC, List.mem_singleton, Prod.mk.injEq] at hmn
              obtain ⟨rfl, rfl⟩ := hmn
              rw [hres] at hres2
              obtain rfl := Option.some.inj hres2
              exact hmono _ (by simp)
            · by_cases hit : i = tgt.rid
              · subst hit
                have : tgt2 = tgt := hinj tgt2 htm2 tgt htgtmem hrid
                subst this
                rw [hcont] at hb
                obtain rfl := Option.some.inj hb
                exact hain m2 n2 hmn2 tgt3 hres3
              · refine hbin i hi ?_ tgt2 htm2 hrid b hb m2 n2 hmn2 tgt3 hres3
                simp only [List.mem_cons, not_or]
                exact ⟨hit, hni⟩
termination_by (fuel, sizeOf c)
decreasing_by
  all_goals simp_wf
  all_goals first
    | (apply Prod.Lex.left; omega)
    | (apply Prod.Lex.right; omega)

/-- List version of `rvisit_complete`. -/
theorem rvisitList_complete (ctx : Ctx) (fuel : Nat) (seen : List Nat)
    (cs : List RC) (hinj : RidInj ctx) (hfuel : unseenCnt ctx seen < fuel) :
    (∀ m n, (m, n) ∈ refsList cs → ∀ tgt, getReference ctx m n = some tgt →
        tgt.rid ∈ (rvisitList ctx fuel seen cs).2)
    ∧ (∀ i ∈ (rvisitList ctx fuel seen cs).2, i ∉ seen →
        ∀ tgt ∈ rulesOf ctx, tgt.rid = i →
          ∀ b, tgt.content = some b →
            ∀ m n, (m, n) ∈ refsRC b →
              ∀ tgt', getReference ctx m n = some tgt' →
                tgt'.rid ∈ (rvisitList ctx fuel seen cs).2) := by
  cases cs with
  | nil =>
    refine ⟨fun m n hmn => by simp [refsList] at hmn, fun i hi hni => ?_⟩
    simp only [rvisitList] at hi
    exact absurd hi hni
  | cons c cs =>
    obtain ⟨ha1, hb1⟩ := rvisit_complete ctx fuel seen c hinj hfuel
    have hmono1 := (rvisit_spec ctx fuel seen c).1
    have hfuel2 : unseenCnt ctx (rvisit ctx fuel seen c).2 < fuel :=
      lt_of_le_of_lt (unseenCnt_mono hmono1) hfuel
    obtain ⟨ha2, hb2⟩ :=
      rvisitList_complete ctx fuel (rvisit ctx fuel seen c).2 cs hinj hfuel2
    have hmono2 :=
      (rvisitList_spec ctx fuel (rvisit ctx fuel seen c).2 cs).1
    rw [rvisitList]
    simp only []
    refine ⟨fun m n hmn tgt hres => ?_,
      fun i hi hni tgt2 htm2 hrid b hb m2 n2 hmn2 tgt3 hres3 => ?_⟩
    · rw [refsList] at hmn
      rcases List.mem_append.1 hmn with h | h
      · exact hmono2 _ (ha1 m n h tgt hres)
      · exact ha2 m n h tgt hres
    · by_cases hmid : i ∈ (rvisit ctx fuel seen c).2
      · exact hmono2 _
          (hb1 i hmid hni tgt2 htm2 hrid b hb m2 n2 hmn2 tgt3 hres3)
      · exact hb2 i hi hmid tgt2 htm2 hrid b hb m2 n2 hmn2 tgt3 hres3
termination_by (fuel, sizeOf cs)
decreasing_by
  all_goals simp_wf
  all_goals first
    | (apply Prod.Lex.left; omega)
    | (apply Prod.Lex.right; omega)

end

theorem RFC_mem {ctx : Ctx} {rs : List (Nat × String)} {tgt : Rule}
    (h : RFC ctx rs tgt) : tgt ∈ rulesOf ctx := by
  induction h with
  | direct _ hres => exact getReference_mem hres
  | step _ _ _ hres => exact getReference_mem hres

theorem RFC_to_ReachF {ctx : Ctx} {root tgt : Rule} {c : RC}
    (hc : root.content = some c) (h : RFC ctx (refsRC c) tgt) :
    ReachF ctx root tgt := by
  induction h with
  | direct hmn hres => exact .step .here hc hmn hres
  | step _ hb hmn hres ih => exact .step ih hb hmn hres

theorem ReachF_cases {ctx : Ctx} {root tgt : Rule}
    (h : ReachF ctx root tgt) :
    tgt = root ∨ ∃ c, root.content = some c ∧ RFC ctx (refsRC c) tgt := by
  induction h with
  | here => exact Or.inl rfl
  | step hmid hb hmn hres ih =>
    rcases ih with rfl | ⟨c, hc, hrfc⟩
    · exact Or.inr ⟨_, hb, .direct hmn hres⟩
    · exact Or.inr ⟨c, hc, .step hrfc hb hmn hres⟩

theorem RFC_in_seen {ctx : Ctx} {fuel : Nat} {c : RC}
    (hinj : RidInj ctx) (hfuel : unseenCnt ctx [] < fuel) {tgt : Rule}
    (h : RFC ctx (refsRC c) tgt) :
    tgt.rid ∈ (rvisit ctx fuel [] c).2 := by
  obtain ⟨ha, hb⟩ := rvisit_complete ctx fuel [] c hinj hfuel
  induction h with
  | direct hmn hres => exact ha _ _ hmn _ hres
  | step hmid hcont hmn hres ih =>
    exact hb _ ih (by simp) _ (RFC_mem hmid) rfl _ hcont _ _ hmn _ hres

/-- Claim C8: `find_reachable_rules` terminates on cyclic rule graphs (any
fuel above the number of rules is enough and the result no longer depends on
it) and returns exactly the rules transitively reachable from the root
through `Reference` nodes resolving via the model's lookup, root included;
dangling references contribute nothing and unreferenced rules are
excluded. -/
theorem c8_reachability (ctx : Ctx) (fuel : Nat) (root : Rule)
    (hinj : RidInj ctx) (hroot : root ∈ rulesOf ctx)
    (hfuel : (rulesOf ctx).length < fuel) :
    ∀ i, i ∈ findReachable ctx fuel root
      ↔ ∃ tgt, ReachF ctx root tgt ∧ tgt.rid = i := by
  have hfuel0 : unseenCnt ctx [] < fuel := by
    have hle : unseenCnt ctx [] ≤ (rulesOf ctx).length :=
      List.length_filter_le _ _
    omega
  intro i
  unfold findReachable
  cases hc : root.content with
  | none =>
    simp only [List.mem_singleton]
    constructor
    · rintro rfl
      exact ⟨root, .here, rfl⟩
    · rintro ⟨tgt, hr, rfl⟩
      rcases ReachF_cases hr with rfl | ⟨c, hcc, _⟩
      · rfl
      · rw [hc] at hcc
        exact absurd hcc (by simp)
  | some c =>
    simp only [List.mem_cons]
    constructor
    · rintro (rfl | hi)
      · exact ⟨root, .here, rfl⟩
      · obtain ⟨tgt, h1, h2, _⟩ := rvisit_sound ctx fuel [] c i hi
        exact ⟨tgt, RFC_to_ReachF hc h1, h2⟩
    · rintro ⟨tgt, hr, rfl⟩
      rcases ReachF_cases hr with rfl | ⟨c2, hcc, hrfc⟩
      · exact Or.inl rfl
      · rw [hc] at hcc
        obtain rfl := Option.some.inj hcc
        right
        have hsn := RFC_in_seen hinj hfuel0 hrfc
        exact ((rvisit_spec ctx fuel [] c).2 tgt.rid).2 ⟨hsn, by simp⟩

def c8RuleA : Rule := { rid := 0, name := "A", content := some (.reference 0 "B") }

def c8RuleB : Rule := { rid := 1, name := "B", content := some (.reference 0 "A") }

def c8Model : ModelS := { mid := 0, nonTerminals := [c8RuleA, c8RuleB] }

def c8Ctx : Ctx := [c8Model]

/-- Claim C8 witness: on the mutually recursive pair `A → B → A` the
reachability computation contains `B`. -/
theorem c8_reachability_witness :
    1 ∈ findReachable c8Ctx 3 c8RuleA :=
  (c8_reachability c8Ctx 3 c8RuleA (by decide) (by decide) (by decide) 1).mpr
    ⟨c8RuleB,
      ReachF.step (b := .reference 0 "B") (m := 0) (n := "B")
        .here rfl (by simp [refsRC]) (by decide), rfl⟩

/-! ## Diagram renderer (`model_renderer.py`) -/

/-- The diagram element tree handed to the external `syntax_diagrams`
renderer: terminal and non-terminal boxes (text, optional href and css class,
plus the `HrefResolverData.text_is_weak` flag), comments, skips, sequences,
choices and the two loop nodes. -/
inductive Element where
  | terminal (text : String) (href : Option String) (cssClass : Option String)
      (textIsWeak : Bool)
  | nonTerminal (text : String) (href : Option String)
      (cssClass : Option String) (textIsWeak : Bool)
  | comment (text : String)
  | skip
  | sequenceE (children : List Element) (linebreaks : List LineBreak)
  | choice (children : List Element) (defaultIdx : Nat)
  | zeroOrMore (child : Element) (canSkip : Bool)
  | oneOrMore (child : Element) (repeatE : Option Element)
mutual

/-- Decidable equality for `Element`, written out explicitly so that it
reduces inside the kernel. -/
def Element.decEq : (a b : Element) → Decidable (a = b)
  | (.terminal t1 h1 c1 w1), (.terminal t2 h2 c2 w2) =>
      if he : t1 = t2 ∧ h1 = h2 ∧ c1 = c2 ∧ w1 = w2 then
        .isTrue (by rw [he.1, he.2.1, he.2.2.1, he.2.2.2])
      else
        .isFalse (fun e => he ⟨(Element.terminal.inj e).1,
          (Element.terminal.inj e).2.1, (Element.terminal.inj e).2.2.1,
          (Element.terminal.inj e).2.2.2⟩)
  | (.terminal _ _ _ _), (.nonTerminal _ _ _ _) => .isFalse (fun h => Element.noConfusion h)
  | (.terminal _ _ _ _), (.comment _) => .isFalse (fun h => Element.noConfusion h)
  | (.terminal _ _ _ _), .skip => .isFalse (fun h => Element.noConfusion h)
  | (.terminal _ _ _ _), (.sequenceE _ _) => .isFalse (fun h => Element.noConfusion h)
  | (.terminal _ _ _ _), (.choice _ _) => .isFalse (fun h => Element.noConfusion h)
  | (.terminal _ _ _ _), (.zeroOrMore _ _) => .isFalse (fun h => Element.noConfusion h)
  | (.terminal _ _ _ _), (.oneOrMore _ _) => .isFalse (fun h => Element.noConfusion h)
  | (.nonTerminal t1 h1 c1 w1), (.nonTerminal t2 h2 c2 w2) =>
      if he : t1 = t2 ∧ h1 = h2 ∧ c1 = c2 ∧ w1 = w2 then
        .isTrue (by rw [he.1, he.2.1, he.2.2.1, he.2.2.2])
      else
        .isFalse (fun e => he ⟨(Element.nonTerminal.inj e).1,
          (Element.nonTerminal.inj e).2.1, (Element.nonTerminal.inj e).2.2.1,
          (Element.nonTerminal.inj e).2.2.2⟩)
  | (.nonTerminal _ _ _ _), (.terminal _ _ _ _) => .isFalse (fun h => Element.noConfusion h)
  | (.nonTerminal _ _ _ _), (.comment _) => .isFalse (fun h => Element.noConfusion h)
  | (.nonTerminal _ _ _ _), .skip => .isFalse (fun h => Element.noConfusion h)
  | (.nonTerminal _ _ _ _), (.sequenceE _ _) => .isFalse (fun h => Element.noConfusion h)
  | (.nonTerminal _ _ _ _), (.choice _ _) => .isFalse (fun h => Element.noConfusion h)
  | (.nonTerminal _ _ _ _), (.zeroOrMore _ _) => .isFalse (fun h => Element.noConfusion h)
  | (.nonTerminal _ _ _ _), (.oneOrMore _ _) => .isFalse (fun h => Element.noConfusion h)
  | (.comment t1), (.comment t2) =>
      if h : t1 = t2 then .isTrue (congrArg Element.comment h)
      else .isFalse (fun e => h (Element.comment.inj e))
  | (.comment _), (.terminal _ _ _ _) => .isFalse (fun h => Element.noConfusion h)
  | (.comment _), (.nonTerminal _ _ _ _) => .isFalse (fun h => Element.noConfusion h)
  | (.comment _), .skip => .isFalse (fun h => Element.noConfusion h)
  | (.comment _), (.sequenceE _ _) => .isFalse (fun h => Element.noConfusion h)
  | (.comment _), (.choice _ _) => .isFalse (fun h => Element.noConfusion h)
  | (.comment _), (.zeroOrMore _ _) => .isFalse (fun h => Element.noConfusion h)
  | (.comment _), (.oneOrMore _ _) => .isFalse (fun h => Element.noConfusion h)
  | .skip, .skip => .isTrue rfl
  | .skip, (.terminal _ _ _ _) => .isFalse (fun h => Element.noConfusion h)
  | .skip, (.nonTerminal _ _ _ _) => .isFalse (fun h => Element.noConfusion h)
  | .skip, (.comment _) => .isFalse (fun h => Element.noConfusion h)
  | .skip, (.sequenceE _ _) => .isFalse (fun h => Element.noConfusion h)
  | .skip, (.choice _ _) => .isFalse (fun h => Element.noConfusion h)
  | .skip, (.zeroOrMore _ _) => .isFalse (fun h => Element.noConfusion h)
  | .skip, (.oneOrMore _ _) => .isFalse (fun h => Element.noConfusion h)
  | (.sequenceE c1 l1), (.sequenceE c2 l2) =>
      match Element.decEqList c1 c2 with
      | .isFalse h => .isFalse (fun e => h (Element.sequenceE.inj e).1)
      | .isTrue h1 =>
          if h2 : l1 = l2 then .isTrue (by rw [h1, h2])
          else .isFalse (fun e => h2 (Element.sequenceE.inj e).2)
  | (.sequenceE _ _), (.terminal _ _ _ _) => .isFalse (fun h => Element.noConfusion h)
  | (.sequenceE _ _), (.nonTerminal _ _ _ _) => .isFalse (fun h => Element.noConfusion h)
  | (.sequenceE _ _), (.comment _) => .isFalse (fun h => Element.noConfusion h)
  | (.sequenceE _ _), .skip => .isFalse (fun h => Element.noConfusion h)
  | (.sequenceE _ _), (.choice _ _) => .isFalse (fun h => Element.noConfusion h)
  | (.sequenceE _ _), (.zeroOrMore _ _) => .isFalse (fun h => Element.noConfusion h)
  | (.sequenceE _ _), (.oneOrMore _ _) => .isFalse (fun h => Element.noConfusion h)
  | (.choice c1 d1), (.choice c2 d2) =>
      match Element.decEqList c1 c2 with
      | .isFalse h => .isFalse (fun e => h (Element.choice.inj e).1)
      | .isTrue h1 =>
          if h2 : d1 = d2 then .isTrue (by rw [h1, h2])
          else .isFalse (fun e => h2 (Element.choice.inj e).2)
  | (.choice _ _), (.terminal _ _ _ _) => .isFalse (fun h => Element.noConfusion h)
  | (.choice _ _), (.nonTerminal _ _ _ _) => .isFalse (fun h => Element.noConfusion h)
  | (.choice _ _), (.comment _) => .isFalse (fun h => Element.noConfusion h)
  | (.choice _ _), .skip => .isFalse (fun h => Element.noConfusion h)
  | (.choice _ _), (.sequenceE _ _) => .isFalse (fun h => Element.noConfusion h)
  | (.choice _ _), (.zeroOrMore _ _) => .isFalse (fun h => Element.noConfusion h)
  | (.choice _ _), (.oneOrMore _ _) => .isFalse (fun h => Element.noConfusion h)
  | (.zeroOrMore c1 s1), (.zeroOrMore c2 s2) =>
      match Element.decEq c1 c2 with
      | .isFalse h => .isFalse (fun e => h (Element.zeroOrMore.inj e).1)
      | .isTrue h1 =>
          if h2 : s1 = s2 then .isTrue (by rw [h1, h2])
          else .isFalse (fun e => h2 (Element.zeroOrMore.inj e).2)
  | (.zeroOrMore _ _), (.terminal _ _ _ _) => .isFalse (fun h => Element.noConfusion h)
  | (.zeroOrMore _ _), (.nonTerminal _ _ _ _) => .isFalse (fun h => Element.noConfusion h)
  | (.zeroOrMore _ _), (.comment _) => .isFalse (fun h => Element.noConfusion h)
  | (.zeroOrMore _ _), .skip => .isFalse (fun h => Element.noConfusion h)
  | (.zeroOrMore _ _), (.sequenceE _ _) => .isFalse (fun h => Element.noConfusion h)
  | (.zeroOrMore _ _), (.choice _ _) => .isFalse (fun h => Element.noConfusion h)
  | (.zeroOrMore _ _), (.oneOrMore _ _) => .isFalse (fun h => Element.noConfusion h)
  | (.oneOrMore c1 r1), (.oneOrMore c2 r2) =>
      match Element.decEq c1 c2 with
      | .isFalse h => .isFalse (fun e => h (Element.oneOrMore.inj e).1)
      | .isTrue h1 =>
          match Element.decEqOpt r1 r2 with
          | .isTrue h2 => .isTrue (by rw [h1, h2])
          | .isFalse h2 => .isFalse (fun e => h2 (Element.oneOrMore.inj e).2)
  | (.oneOrMore _ _), (.terminal _ _ _ _) => .isFalse (fun h => Element.noConfusion h)
  | (.oneOrMore _ _), (.nonTerminal _ _ _ _) => .isFalse (fun h => Element.noConfusion h)
  | (.oneOrMore _ _), (.comment _) => .isFalse (fun h => Element.noConfusion h)
  | (.oneOrMore _ _), .skip => .isFalse (fun h => Element.noConfusion h)
  | (.oneOrMore _ _), (.sequenceE _ _) => .isFalse (fun h => Element.noConfusion h)
  | (.oneOrMore _ _), (.choice _ _) => .isFalse (fun h => Element.noConfusion h)
  | (.oneOrMore _ _), (.zeroOrMore _ _) => .isFalse (fun h => Element.noConfusion h)

/-- Decidable equality for lists of elements. -/
def Element.decEqList : (a b : List Element) → Decidable (a = b)
  | [], [] => .isTrue rfl
  | [], _ :: _ => .isFalse (fun h => List.noConfusion h)
  | _ :: _, [] => .isFalse (fun h => List.noConfusion h)
  | a :: as, b :: bs =>
      match Element.decEq a b, Element.decEqList as bs with
      | .isTrue h1, .isTrue h2 => .isTrue (by rw [h1, h2])
      | .isFalse h1, _ => .isFalse (fun e => h1 (List.cons.inj e).1)
      | _, .isFalse h2 => .isFalse (fun e => h2 (List.cons.inj e).2)

/-- Decidable equality for optional elements. -/
def Element.decEqOpt : (a b : Option Element) → Decidable (a = b)
  | none, none => .isTrue rfl
  | none, some _ => .isFalse (fun h => Option.noConfusion h)
  | some _, none => .isFalse (fun h => Option.noConfusion h)
  | some a, some b =>
      match Element.decEq a b with
      | .isTrue h => .isTrue (congrArg some h)
      | .isFalse h => .isFalse (fun e => h (Option.some.inj e))

end

instance : DecidableEq Element := Element.decEq

/-- Rendering precedence of each node kind (`__meta__.precedence`). -/
def RC.prec : RC → Nat
  | .literal _ => 4
  | .range _ _ => 4
  | .charset _ => 4
  | .reference _ _ => 4
  | .doc _ => 4
  | .wildcard => 4
  | .negation _ => 3
  | .zeroPlus _ => 3
  | .onePlus _ => 3
  | .sequence _ _ _ => 1
  | .alternative _ => 0

mutual

/-- `RuleContent.__str__`: each node's formatter, parenthesizing children
whose precedence does not exceed the parent's. -/
def strRC : RC → String
  | .literal c => c
  | .range a b => a ++ ".." ++ b
  | .charset c => c
  | .reference _ n => n
  | .doc v => "/** " ++ v ++ " */"
  | .wildcard => "."
  | .negation c =>
      "~" ++ (if 3 < c.prec then strRC c else "(" ++ strRC c ++ ")")
  | .zeroPlus c =>
      (if 3 < c.prec then strRC c else "(" ++ strRC c ++ ")") ++ "*"
  | .onePlus c =>
      (if 3 < c.prec then strRC c else "(" ++ strRC c ++ ")") ++ "+"
  | .sequence cs _ _ => String.intercalate " " (strList 1 cs)
  | .alternative cs => String.intercalate " | " (strList 0 cs)

/-- Children rendered under a parent of precedence `p`. -/
def strList (p : Nat) : List RC → List String
  | [] => []
  | c :: cs =>
      (if p < c.prec then strRC c else "(" ++ strRC c ++ ")") :: strList p cs

end

/-- Backslash-unescaping of the inside of a single-quoted Python string
literal; `none` models a `SyntaxError` from `ast.literal_eval` (stray quote
or trailing backslash).  An unrecognized escape keeps the backslash, as
Python string literals do. -/
def unescapeQuoted : List Char → Option (List Char)
  | [] => some []
  | '\\' :: [] => none
  | '\\' :: c :: rest =>
      (unescapeQuoted rest).map (fun l =>
        match c with
        | 'n' => '\n' :: l
        | 't' => '\t' :: l
        | 'r' => '\r' :: l
        | '\\' => '\\' :: l
        | '\'' => '\'' :: l
        | '"' => '"' :: l
        | other => '\\' :: other :: l)
  | '\'' :: _ => none
  | c :: rest => (unescapeQuoted rest).map (fun l => c :: l)

/-- Python `s.startswith("'")`: the first character is a single quote. -/
def startsWithQuote (s : String) : Bool :=
  s.toList.head? = some '\''

/-- Python `s.endswith("'")`: the last character is a single quote. -/
def endsWithQuote (s : String) : Bool :=
  s.toList.getLast? = some '\''

/-- `ast.literal_eval` on a single-quoted string literal. -/
def pyLiteralEval (s : String) : Option String :=
  if 2 ≤ s.toList.length ∧ startsWithQuote s ∧ endsWithQuote s then
    (unescapeQuoted ((s.toList.drop 1).dropLast)).map List.asString
  else
    none

/-- `literal_rendering` setting of the renderer. -/
inductive LitRend where
  | name
  | contents
  | contentsUnquoted
deriving DecidableEq, Repr

/-- Renderer settings (`_Renderer.__init__` arguments). -/
structure RSettings where
  literalRendering : LitRend := .contentsUnquoted
  ccToDash : Bool := false
deriving DecidableEq, Repr

/-- `_Renderer._unquote`: a string that is not single-quoted passes through;
a quoted one is evaluated (`SyntaxError` passes the original through) and
re-quoted unless the rendering mode is `contents-unquoted`. -/
def unquote (st : RSettings) (s : String) : String :=
  if startsWithQuote s ∧ endsWithQuote s then
    match pyLiteralEval s with
    | none => s
    | some v =>
        match st.literalRendering with
        | .contentsUnquoted => v
        | _ => "'" ++ v ++ "'"
  else s

/-- `to_dash_case` (regex-based in the source): underscores become dashes, a
dash is inserted at a lower-to-upper boundary, and the result is lowercased.
Only reached when the `cc_to_dash` option is set, which no verified claim
exercises. -/
def toDashCase (s : String) : String :=
  let rec go : List Char → List Char
    | [] => []
    | '_' :: rest => '-' :: go rest
    | a :: b :: rest =>
        if (a.isLower ∨ a.isDigit) ∧ b.isUpper then
          a.toLower :: '-' :: go (b :: rest)
        else a.toLower :: go (b :: rest)
    | [a] => [a.toLower]
  List.asString (go s.toList)

/-- `_Renderer._cc_to_dash`. -/
def ccToDashF (st : RSettings) (s : String) : String :=
  if st.ccToDash then toDashCase s else s

mutual

/-- `ImportanceProvider`: leaves are importance 1, documentation 0,
references take the referenced rule's importance (1 when dangling), and
composites take the maximum over their children (0 for empty
composites). -/
def importanceOf (ctx : Ctx) : RC → Int
  | .literal _ => 1
  | .range _ _ => 1
  | .charset _ => 1
  | .wildcard => 1
  | .doc _ => 0
  | .reference m n =>
      match getReference ctx m n with
      | none => 1
      | some r => r.importance
  | .negation c => importanceOf ctx c
  | .zeroPlus c => importanceOf ctx c
  | .onePlus c => importanceOf ctx c
  | .sequence cs _ _ =>
      match cs with
      | [] => 0
      | c :: rest => (importanceList ctx rest).foldl max (importanceOf ctx c)
  | .alternative cs =>
      match cs with
      | [] => 0
      | c :: rest => (importanceList ctx rest).foldl max (importanceOf ctx c)

/-- Importance of each child. -/
def importanceList (ctx : Ctx) : List RC → List Int
  | [] => []
  | c :: cs => importanceOf ctx c :: importanceList ctx cs

end

/-- Index of the first maximal value (`max(enumerate(children), key=...)`
keeps the first of equals). -/
def argmaxGo (i bi : Nat) (bv : Int) : List Int → Nat
  | [] => bi
  | v :: vs => if bv < v then argmaxGo (i + 1) i v vs else argmaxGo (i + 1) bi bv vs

/-- Index of the first maximal value of a list (0 for the empty list). -/
def argmaxIdx (vals : List Int) : Nat :=
  match vals with
  | [] => 0
  | v :: vs => argmaxGo 1 0 v vs

/-- A `Reference` whose `get_reference()` is the given rule object. -/
def isSelfRef (ctx : Ctx) (rule : Rule) : RC → Bool
  | .reference m n => decide (getReference ctx m n = some rule)
  | _ => false

/-- Left-recursive branch test of `_opt_recursion`: a non-empty `Sequence`
whose first element is a self-reference. -/
def isLeftBranch (ctx : Ctx) (rule : Rule) : RC → Bool
  | .sequence (h :: _) _ _ => isSelfRef ctx rule h
  | _ => false

/-- A non-empty `Sequence` whose last element is a self-reference (the raw
right-recursion shape, before the `elif` of `_opt_recursion` excludes
branches that are also left-recursive). -/
def isLastSelfRef (ctx : Ctx) (rule : Rule) : RC → Bool
  | .sequence (c :: cs) _ _ => isSelfRef ctx rule ((c :: cs).getLast (by simp))
  | _ => false

/-- Right-recursive branch test as `_opt_recursion` actually counts it:
last element a self-reference and first element not. -/
def isRightBranch (ctx : Ctx) (rule : Rule) (c : RC) : Bool :=
  !isLeftBranch ctx rule c && isLastSelfRef ctx rule c

/-- `Sequence(elem.children[1:], elem.linebreaks[1:])`. -/
def stripHead : RC → RC
  | .sequence cs lbs _ => seqNew (cs.drop 1) (some (lbs.drop 1))
  | other => other

/-- `Sequence(elem.children[:-1], elem.linebreaks[:-1])`. -/
def stripLast : RC → RC
  | .sequence cs lbs _ => seqNew cs.dropLast (some lbs.dropLast)
  | other => other

/-- First element of a non-empty `Sequence`, else the node itself (the
grouping key of the leading-factor pass). -/
def firstOf : RC → RC
  | .sequence (h :: _) _ _ => h
  | other => other

/-- Last element of a non-empty `Sequence`, else the node itself (the
grouping key of the trailing-factor pass). -/
def lastOf : RC → RC
  | .sequence (c :: cs) _ _ => (c :: cs).getLast (by simp)
  | other => other

/-- Group-member stripping of the leading-factor pass: any `Sequence` loses
its first element and linebreak, anything else becomes `EMPTY`. -/
def stripHeadOrEmpty : RC → RC
  | .sequence cs lbs _ => seqNew (cs.drop 1) (some (lbs.drop 1))
  | _ => EMPTY

/-- Group-member stripping of the trailing-factor pass. -/
def stripLastOrEmpty : RC → RC
  | .sequence cs lbs _ => seqNew cs.dropLast (some lbs.dropLast)
  | _ => EMPTY

/-- `_Renderer._opt_alternative`: factor a common leading element shared by
two or more branches (`x A | x B → x (A|B)`), then factor a common trailing
element on the output.  Grouping compares elements with Python `==`
(`structEq`), the factored group replaces its first member and the other
members are dropped, and the shrunken branch lists are refactored
recursively.  The fuel makes the recursion total: Python diverges on
duplicate branches (`opt_alternative([x, x])` recurses on `[EMPTY, EMPTY]`
forever), which out-of-fuel models by falling back to a plain
`Alternative`. -/
def optAlternative : Nat → List RC → RC
  | 0, children => altNew children
  | f + 1, children =>
    if children.length ≤ 1 then altNew children
    else
      let children1 :=
        children.enum.filterMap (fun p =>
          let fi := firstOf p.2
          let grp := children.filter (fun e => structEq (firstOf e) fi)
          if grp.length ≤ 1 then some p.2
          else if (children.take p.1).any (fun e => structEq (firstOf e) fi)
          then none
          else
            some (seqNew
              [fi, optAlternative f (grp.map stripHeadOrEmpty)] none))
      if children1.length ≤ 1 then altNew children1
      else
        let children2 :=
          children1.enum.filterMap (fun p =>
            let la := lastOf p.2
            let grp := children1.filter (fun e => structEq (lastOf e) la)
            if grp.length ≤ 1 then some p.2
            else if (children1.take p.1).any (fun e => structEq (lastOf e) la)
            then none
            else
              some (seqNew
                [optAlternative f (grp.map stripLastOrEmpty), la] none))
        altNew children2

/-- Items of the working list of `_opt_sequence`: rule-content nodes mixed
with already-built diagram elements. -/
abbrev SeqItem := Sum RC Element

/-- The inner body of a `ZeroPlus` as a working list: a `Sequence` child
contributes its children and linebreaks, anything else is a one-element
run. -/
def nestedOf : RC → List SeqItem × List LineBreak
  | .sequence cc cl _ => (cc.map Sum.inl, cl)
  | other => ([Sum.inl other], [])

/-- Mismatch test of the backward overlap scan: the outer index `i + j -
len(nested)` is negative, or the outer item is not the nested item. -/
def backMismatch (seq nested : List SeqItem) (i j : Nat) : Bool :=
  decide (i + j < nested.length)
    || !(decide (seq.get? (i + j - nested.length) = nested.get? j))

/-- Break result of the backward scan: `seq_start = k + 1` (0 when `k`
was negative) and `nested_seq_start = j + 1`. -/
def backBreakVal (nested : List SeqItem) (i j : Nat) : Nat × Nat :=
  (if i + j < nested.length then 0 else i + j - nested.length + 1, j + 1)

/-- Backward overlap scan of `_opt_sequence` (`x y z (A B x y z)*`): match
the suffix of the nested run against the items before position `i`, walking
`j` from the end; on the first mismatch report the break values, and report
the full-overlap split `(i - len(nested), 0)` when every element matched. -/
def innerBack (seq nested : List SeqItem) (i : Nat) : Nat → Nat × Nat
  | 0 =>
      if backMismatch seq nested i 0 then backBreakVal nested i 0
      else (i - nested.length, 0)
  | j + 1 =>
      if backMismatch seq nested i (j + 1) then backBreakVal nested i (j + 1)
      else innerBack seq nested i j

/-- One index of the backward star scan: a `ZeroPlus` item at `i` whose run
overlaps the preceding items; returns
`(i, seq_start, nested, nested_lb, nested_seq_start)`. -/
def starHitBack (seq : List SeqItem) (i : Nat) :
    Option (Nat × Nat × List SeqItem × List LineBreak × Nat) :=
  match seq.get? i with
  | some (Sum.inl (RC.zeroPlus child)) =>
    let nb := nestedOf child
    let sp :=
      match nb.1.length with
      | 0 => (i, 0)
      | len + 1 => innerBack seq nb.1 i len
    if sp.1 = i then none
    else some (i, sp.1, nb.1, nb.2, sp.2)
  | _ => none

/-- Scan for the rightmost `ZeroPlus` item with a backward overlap. -/
def findStarBack (seq : List SeqItem) : Nat → Option (Nat × Nat × List SeqItem × List LineBreak × Nat)
  | 0 => starHitBack seq 0
  | i + 1 =>
    match starHitBack seq (i + 1) with
    | some r => some r
    | none => findStarBack seq i

/-- Mismatch test of the forward overlap scan: the outer index `i + j + 1`
runs past the sequence, or the outer item is not the nested item. -/
def fwdMismatch (seq nested : List SeqItem) (i j : Nat) : Bool :=
  decide (seq.length ≤ i + j + 1)
    || !(decide (seq.get? (i + j + 1) = nested.get? j))

/-- Forward overlap scan of `_opt_sequence` (`(x y z A B)* x y z`): match the
prefix of the nested run against the items after position `i`, walking `j`
upward (`rem` counts the remaining nested indices); a full overlap reports
`(len(nested), none)` — the source's `seq_end = len(nested_seq)`,
`nested_seq_end = -1`. -/
def innerFwd (seq nested : List SeqItem) (i : Nat) : Nat → Nat → Nat × Option Nat
  | j, 0 =>
      if fwdMismatch seq nested i j then (i + j, some j)
      else (nested.length, none)
  | j, r + 1 =>
      if fwdMismatch seq nested i j then (i + j, some j)
      else innerFwd seq nested i (j + 1) r

/-- One index of the forward star scan; a `ZeroPlus` over a structurally
empty sequence distinct from `EMPTY` (which the constructors cannot produce)
is treated as no overlap. -/
def starHitFwd (seq : List SeqItem) (i : Nat) :
    Option (Nat × Nat × List SeqItem × List LineBreak × Option Nat) :=
  match seq.get? i with
  | some (Sum.inl (RC.zeroPlus child)) =>
    let nb := nestedOf child
    let sp :=
      match nb.1.length with
      | 0 => (i, some 0)
      | len + 1 => innerFwd seq nb.1 i 0 len
    if sp.1 = i then none
    else some (i, sp.1, nb.1, nb.2, sp.2)
  | _ => none

/-- Scan for the leftmost `ZeroPlus` item with a forward overlap (`rem`
counts the remaining indices to check). -/
def findStarFwd (seq : List SeqItem) : Nat → Nat → Option (Nat × Nat × List SeqItem × List LineBreak × Option Nat)
  | i, 0 => starHitFwd seq i
  | i, r + 1 =>
    match starHitFwd seq i with
    | some x => some x
    | none => findStarFwd seq (i + 1) r

/-- `Model.get_name()` of the model a rule belongs to. -/
def modelName (ctx : Ctx) (mid : Nat) : String :=
  match getModel ctx mid with
  | some m => m.name
  | none => ""

/-- `str(rule.content)` (`str(None)` is `"None"`). -/
def strOptContent : Option RC → String
  | some c => strRC c
  | none => "None"

mutual

/-- `_Renderer.visit` dispatch (the memoizing cache of
`CachedRuleContentVisitor` is behavior-preserving for deterministic results
and is not modelled).  Fuel decreases on every recursive call; rendering a
rule of a loaded model always has enough fuel. -/
def visitR (st : RSettings) (ctx : Ctx) : Nat → List Nat → RC → Element
  | 0, _, _ => .skip
  | f + 1, path, c =>
    match c with
    | .literal s => .terminal (unquote st s) none (some "literal") false
    | .range a b => .terminal (a ++ ".." ++ b) none (some "range") false
    | .charset s => .terminal s none (some "charset") false
    | .doc v => .comment v
    | .wildcard => .terminal "." none (some "wildcard") false
    | .negation c' =>
        .terminal (strRC (.negation c')) none (some "negation") false
    | .zeroPlus c' =>
        .zeroOrMore (visitR st ctx f path c')
          (decide (importanceOf ctx c' = 0))
    | .onePlus c' => .oneOrMore (visitR st ctx f path c') none
    | .sequence cs ls _ => optSequence st ctx f path (cs.map Sum.inl) ls
    | .alternative cs =>
        .choice (visitList st ctx f path cs)
          (argmaxIdx (importanceList ctx cs))
    | .reference m n =>
      match getReference ctx m n with
      | none =>
        if n ≠ "" ∧ ((n.toList.headD ' ').isUpper ∨ startsWithQuote n) then
          .terminal
            (if startsWithQuote n ∧ endsWithQuote n then unquote st n
             else ccToDashF st n) none none true
        else
          .nonTerminal (ccToDashF st n) none none true
      | some rule =>
        if rule.isInline ∧ rule.content.isSome ∧ ¬ rule.rid ∈ path then
          renderR st ctx f path rule
        else if rule.isLexer then
          if rule.isLiteral ∧ st.literalRendering ≠ .name then
            .terminal (unquote st (strOptContent rule.content))
              (some (modelName ctx rule.modelId ++ "." ++ rule.name))
              rule.cssClass false
          else
            .terminal (rule.displayName.getD (ccToDashF st rule.name))
              (some (modelName ctx rule.modelId ++ "." ++ rule.name))
              rule.cssClass true
        else
          .nonTerminal (rule.displayName.getD (ccToDashF st rule.name))
            (some (modelName ctx rule.modelId ++ "." ++ rule.name))
            rule.cssClass true

/-- Children of an `Alternative`, each visited. -/
def visitList (st : RSettings) (ctx : Ctx) :
    Nat → List Nat → List RC → List Element
  | 0, _, _ => []
  | _ + 1, _, [] => []
  | f + 1, path, c :: cs =>
      visitR st ctx f path c :: visitList st ctx f path cs

/-- Working items of `_opt_sequence`, each visited (already-built elements
pass through). -/
def visitSumList (st : RSettings) (ctx : Ctx) :
    Nat → List Nat → List SeqItem → List Element
  | 0, _, _ => []
  | _ + 1, _, [] => []
  | f + 1, path, item :: items =>
      (match item with
        | Sum.inl rc => visitR st ctx f path rc
        | Sum.inr e => e) :: visitSumList st ctx f path items

/-- `_Renderer._opt_sequence`: repeatedly collapse a `ZeroPlus` item that
overlaps its neighbours into a `one_or_more(main, repeat)` element — first
the backward pattern `x y z (A B x y z)*` scanning from the right, then the
forward pattern `(x y z A B)* x y z` scanning from the left — and finally
emit the sequence of visited items.  (The source's
`assert len(seq) == len(lb) + 1` is not modelled.) -/
def optSequence (st : RSettings) (ctx : Ctx) :
    Nat → List Nat → List SeqItem → List LineBreak → Element
  | 0, _, _, _ => .skip
  | f + 1, path, seq, lb =>
    if seq.isEmpty then .skip
    else
      match findStarBack seq (seq.length - 1) with
      | some (i, seqStart, nested, nestedLb, ns) =>
        let repeatE :=
          optSequence st ctx f path (nested.take ns) (nestedLb.take (ns - 1))
        let mainE :=
          optSequence st ctx f path (nested.drop ns) (nestedLb.drop ns)
        let item := Element.oneOrMore mainE (some repeatE)
        optSequence st ctx f path
          (seq.take seqStart ++ [Sum.inr item] ++ seq.drop (i + 1))
          (lb.take seqStart ++ lb.drop i)
      | none =>
        match findStarFwd seq 0 (seq.length - 1) with
        | some (i, seqEnd, nested, nestedLb, ne) =>
          let split :=
            match ne with
            | some j => (nested.take j, nestedLb.take (j - 1),
                nested.drop j, nestedLb.drop j)
            | none => (nested.dropLast, nestedLb.take (nestedLb.length - 2),
                nested.drop (nested.length - 1),
                nestedLb.drop (nestedLb.length - 1))
          let mainE := optSequence st ctx f path split.1 split.2.1
          let repeatE := optSequence st ctx f path split.2.2.1 split.2.2.2
          let item := Element.oneOrMore mainE (some repeatE)
          optSequence st ctx f path
            (seq.take i ++ [Sum.inr item] ++ seq.drop (seqEnd + 1))
            (lb.take i ++ lb.drop seqEnd)
        | none =>
          Element.sequenceE (visitSumList st ctx f path seq) lb

/-- `_Renderer.render` / `_Renderer._opt_recursion`: push the rule on the
rendering path, then — for an `Alternative` body of a rule that does not opt
out via `keep_diagram_recursive` — classify the branches (a branch both
left- and right-recursive counts as left only, by the source's `elif`), fold
left recursion as `Sequence(start, ZeroPlus(repeat))` when left-recursive
branches exist and are at least as many as right-recursive ones, mirror for
right recursion, and otherwise render the factored alternative. -/
def renderR (st : RSettings) (ctx : Ctx) : Nat → List Nat → Rule → Element
  | 0, _, _ => .skip
  | f + 1, path, rule =>
    let path' := rule.rid :: path
    match rule.content with
    | none => .skip
    | some content =>
      match content with
      | .alternative cs =>
        if rule.keepDiagramRecursive then visitR st ctx f path' content
        else
          let idx := cs.enum
          let lrb := (idx.filter (fun p => isLeftBranch ctx rule p.2)).map
            Prod.fst
          let rrb := (idx.filter (fun p => isRightBranch ctx rule p.2)).map
            Prod.fst
          if lrb ≠ [] ∧ rrb.length ≤ lrb.length then
            let recs := (idx.filter (fun p => p.1 ∈ lrb)).map
              (fun p => stripHead p.2)
            let norms := (idx.filter (fun p => ¬ p.1 ∈ lrb)).map Prod.snd
            visitR st ctx f path'
              (seqNew [optAlternative f norms,
                zeroPlusNew (optAlternative f recs)] none)
          else if rrb ≠ [] then
            let recs := (idx.filter (fun p => p.1 ∈ rrb)).map
              (fun p => stripLast p.2)
            let norms := (idx.filter (fun p => ¬ p.1 ∈ rrb)).map Prod.snd
            visitR st ctx f path'
              (seqNew [zeroPlusNew (optAlternative f recs),
                optAlternative f norms] none)
          else
            visitR st ctx f path' (optAlternative f cs)
      | _ => visitR st ctx f path' content

end

theorem enumFrom_fst_ge {α : Type} :
    ∀ {cs : List α} {n i : Nat} {x : α}, (i, x) ∈ cs.enumFrom n → n ≤ i := by
  intro cs
  induction cs with
  | nil => simp
  | cons c cs ih =>
    intro n i x h
    rw [List.enumFrom] at h
    rcases List.mem_cons.1 h with h | h
    · cases h; omega
    · have := ih h; omega

theorem enumFrom_unique {α : Type} :
    ∀ {cs : List α} {n i : Nat} {x y : α},
      (i, x) ∈ cs.enumFrom n → (i, y) ∈ cs.enumFrom n → x = y := by
  intro cs
  induction cs with
  | nil => simp
  | cons c cs ih =>
    intro n i x y hx hy
    rw [List.enumFrom] at hx hy
    rcases List.mem_cons.1 hx with hx | hx <;>
      rcases List.mem_cons.1 hy with hy | hy
    · cases hx; cases hy; rfl
    · cases hx; have := enumFrom_fst_ge hy; omega
    · cases hy; have := enumFrom_fst_ge hx; omega
    · exact ih hx hy

theorem enumFrom_filter_map_snd {α β : Type} (P : α → Bool) (f : α → β) :
    ∀ (cs : List α) (n : Nat),
      ((cs.enumFrom n).filter (fun p => P p.2)).map (fun p => f p.2)
        = (cs.filter P).map f := by
  intro cs
  induction cs with
  | nil => simp
  | cons c cs ih =>
    intro n
    rw [List.enumFrom, List.filter_cons, List.filter_cons]
    by_cases hc : P c = true
    · simp only [hc, if_true, List.map_cons]
      rw [ih]
    · simp only [Bool.not_eq_true] at hc
      simp only [hc, Bool.false_eq_true, if_false]
      rw [ih]

theorem enumFrom_filter_length {α : Type} (P : α → Bool) :
    ∀ (cs : List α) (n : Nat),
      (((cs.enumFrom n).filter (fun p => P p.2)).map Prod.fst).length
        = cs.countP P := by
  intro cs
  induction cs with
  | nil => simp
  | cons c cs ih =>
    intro n
    rw [List.enumFrom, List.filter_cons, List.countP_cons]
    by_cases hc : P c = true
    · simp only [hc, if_true, List.map_cons, List.length_cons, ih]
    · simp only [Bool.not_eq_true] at hc
      simp [hc, ih]

theorem mem_enum_filter_fst {α : Type} (P : α → Bool) (cs : List α)
    (n i : Nat) :
    i ∈ ((cs.enumFrom n).filter (fun p => P p.2)).map Prod.fst
      ↔ ∃ x, (i, x) ∈ cs.enumFrom n ∧ P x = true := by
  constructor
  · intro h
    obtain ⟨p, hp, hpi⟩ := List.mem_map.1 h
    obtain ⟨hmem, hP⟩ := List.mem_filter.1 hp
    subst hpi
    exact ⟨p.2, by simpa using hmem, hP⟩
  · rintro ⟨x, hmem, hP⟩
    exact List.mem_map.2 ⟨(i, x), List.mem_filter.2 ⟨hmem, hP⟩, rfl⟩

theorem pass2_idx_iff {α : Type} (P : α → Bool) (cs : List α) :
    ∀ p ∈ cs.enum,
      (decide (p.1 ∈ ((cs.enum.filter (fun q => P q.2)).map Prod.fst)) : Bool)
        = P p.2 := by
  rintro ⟨i, x⟩ hp
  simp only [List.enum] at hp ⊢
  by_cases hPx : P x = true
  · have : i ∈ ((cs.enumFrom 0).filter (fun q => P q.2)).map Prod.fst :=
      (mem_enum_filter_fst P cs 0 i).2 ⟨x, hp, hPx⟩
    simp [this, hPx]
  · have : ¬ i ∈ ((cs.enumFrom 0).filter (fun q => P q.2)).map Prod.fst := by
      intro hmem
      obtain ⟨y, hy, hPy⟩ := (mem_enum_filter_fst P cs 0 i).1 hmem
      exact hPx (enumFrom_unique hy hp ▸ hPy)
    simp only [Bool.not_eq_true] at hPx
    simp [this, hPx]

/-- Claim C1: for a rule whose `keep_diagram_recursive` flag is unset and
whose body is an `Alternative` with at least one left-recursive branch (a
`Sequence` whose first element is a `Reference` resolving to the rule
itself) and at least as many left-recursive branches as branches ending in a
self-reference, rendering produces the diagram of
`Sequence(start, ZeroPlus(repeat))`, where `repeat` is the renderer's
alternative of the left-recursive branches with the leading self-reference
(and its linebreak) stripped, and `start` is the renderer's alternative of
the remaining branches. -/
theorem c1_left_recursion_folding (st : RSettings) (ctx : Ctx) (f : Nat)
    (path : List Nat) (rule : Rule) (cs : List RC)
    (hc : rule.content = some (.alternative cs))
    (hk : rule.keepDiagramRecursive = false)
    (hL : 0 < cs.countP (isLeftBranch ctx rule))
    (hR : cs.countP (isLastSelfRef ctx rule)
        ≤ cs.countP (isLeftBranch ctx rule)) :
    renderR st ctx (f + 1) path rule
      = visitR st ctx f (rule.rid :: path)
          (seqNew
            [optAlternative f
              (cs.filter (fun c => !(isLeftBranch ctx rule c))),
             zeroPlusNew (optAlternative f
               ((cs.filter (isLeftBranch ctx rule)).map stripHead))]
            none) := by
  have hrrb_le : cs.countP (isRightBranch ctx rule)
      ≤ cs.countP (isLeftBranch ctx rule) := by
    refine le_trans (List.countP_mono_left (fun c _ h => ?_)) hR
    unfold isRightBranch at h
    rw [Bool.and_eq_true] at h
    exact h.2
  have hlrb_len :
      (((cs.enum.filter (fun p => isLeftBranch ctx rule p.2)).map
        Prod.fst)).length = cs.countP (isLeftBranch ctx rule) := by
    simpa [List.enum] using
      enumFrom_filter_length (isLeftBranch ctx rule) cs 0
  have hrrb_len :
      (((cs.enum.filter (fun p => isRightBranch ctx rule p.2)).map
        Prod.fst)).length = cs.countP (isRightBranch ctx rule) := by
    simpa [List.enum] using
      enumFrom_filter_length (isRightBranch ctx rule) cs 0
  have hlrb_ne :
      (cs.enum.filter (fun p => isLeftBranch ctx rule p.2)).map Prod.fst
        ≠ [] := by
    apply List.ne_nil_of_length_pos
    rw [hlrb_len]
    exact hL
  have hrecs :
      (cs.enum.filter (fun p =>
        p.1 ∈ (cs.enum.filter (fun q =>
          isLeftBranch ctx rule q.2)).map Prod.fst)).map
            (fun p => stripHead p.2)
        = (cs.filter (isLeftBranch ctx rule)).map stripHead := by
    rw [List.filter_congr (pass2_idx_iff (isLeftBranch ctx rule) cs)]
    simpa [List.enum] using
      enumFrom_filter_map_snd (isLeftBranch ctx rule) stripHead cs 0
  have hnorms :
      (cs.enum.filter (fun p =>
        ¬ p.1 ∈ (cs.enum.filter (fun q =>
          isLeftBranch ctx rule q.2)).map Prod.fst)).map Prod.snd
        = cs.filter (fun c => !(isLeftBranch ctx rule c)) := by
    have hcong : ∀ p ∈ cs.enum,
        (decide (¬ p.1 ∈ (cs.enum.filter (fun q =>
          isLeftBranch ctx rule q.2)).map Prod.fst) : Bool)
          = !(isLeftBranch ctx rule p.2) := by
      intro p hp
      rw [decide_not, pass2_idx_iff (isLeftBranch ctx rule) cs p hp]
    rw [List.filter_congr hcong]
    have h2 := enumFrom_filter_map_snd
      (fun c => !(isLeftBranch ctx rule c)) id cs 0
    simpa [List.enum] using h2
  simp only [renderR]
  rw [hc, hk]
  simp only [Bool.false_eq_true, if_false]
  rw [if_pos ⟨hlrb_ne, by rw [hlrb_len, hrrb_len]; exact hrrb_le⟩]
  rw [hrecs, hnorms]

def c1RuleT : Rule := { rid := 2, name := "T", modelId := 5 }

def c1Branch : RC :=
  seqNew [.reference 5 "E", .literal "'+'", .reference 5 "T"] none

def c1Alts : List RC := [c1Branch, .reference 5 "T"]

def c1RuleE : Rule :=
  { rid := 3, name := "E", modelId := 5,
    content := some (altNew c1Alts) }

def c1Model : ModelS :=
  { mid := 5, name := "G", nonTerminals := [c1RuleE, c1RuleT] }

def c1Ctx : Ctx := [c1Model]

/-- Claim C1 witness: the folding theorem applied to `E : E '+' T | T`. -/
theorem c1_left_recursion_folding_witness :
    renderR {} c1Ctx 11 [] c1RuleE
      = visitR {} c1Ctx 10 (c1RuleE.rid :: [])
          (seqNew
            [optAlternative 10
              (c1Alts.filter (fun c => !(isLeftBranch c1Ctx c1RuleE c))),
             zeroPlusNew (optAlternative 10
               ((c1Alts.filter (isLeftBranch c1Ctx c1RuleE)).map stripHead))]
            none) :=
  c1_left_recursion_folding {} c1Ctx 10 [] c1RuleE c1Alts
    (by decide) (by decide) (by decide) (by decide)

/-- Claim C5 (amended): the mirror fold applies when the branches that are
right- but not left-recursive (a branch recursive at both ends counts as
left-recursive only, by the source's `elif`) strictly outnumber the
left-recursive branches; `repeat` strips the trailing self-reference from
those purely right-recursive branches and `end` collects the rest. -/
theorem c5_right_recursion_amended (st : RSettings) (ctx : Ctx) (f : Nat)
    (path : List Nat) (rule : Rule) (cs : List RC)
    (hc : rule.content = some (.alternative cs))
    (hk : rule.keepDiagramRecursive = false)
    (hLt : cs.countP (isLeftBranch ctx rule)
        < cs.countP (isRightBranch ctx rule)) :
    renderR st ctx (f + 1) path rule
      = visitR st ctx f (rule.rid :: path)
          (seqNew
            [zeroPlusNew (optAlternative f
               ((cs.filter (isRightBranch ctx rule)).map stripLast)),
             optAlternative f
               (cs.filter (fun c => !(isRightBranch ctx rule c)))]
            none) := by
  have hlrb_len :
      (((cs.enum.filter (fun p => isLeftBranch ctx rule p.2)).map
        Prod.fst)).length = cs.countP (isLeftBranch ctx rule) := by
    simpa [List.enum] using
      enumFrom_filter_length (isLeftBranch ctx rule) cs 0
  have hrrb_len :
      (((cs.enum.filter (fun p => isRightBranch ctx rule p.2)).map
        Prod.fst)).length = cs.countP (isRightBranch ctx rule) := by
    simpa [List.enum] using
      enumFrom_filter_length (isRightBranch ctx rule) cs 0
  have hrrb_ne :
      (cs.enum.filter (fun p => isRightBranch ctx rule p.2)).map Prod.fst
        ≠ [] := by
    apply List.ne_nil_of_length_pos
    rw [hrrb_len]
    omega
  have hrecs :
      (cs.enum.filter (fun p =>
        p.1 ∈ (cs.enum.filter (fun q =>
          isRightBranch ctx rule q.2)).map Prod.fst)).map
            (fun p => stripLast p.2)
        = (cs.filter (isRightBranch ctx rule)).map stripLast := by
    rw [List.filter_congr (pass2_idx_iff (isRightBranch ctx rule) cs)]
    simpa [List.enum] using
      enumFrom_filter_map_snd (isRightBranch ctx rule) stripLast cs 0
  have hnorms :
      (cs.enum.filter (fun p =>
        ¬ p.1 ∈ (cs.enum.filter (fun q =>
          isRightBranch ctx rule q.2)).map Prod.fst)).map Prod.snd
        = cs.filter (fun c => !(isRightBranch ctx rule c)) := by
    have hcong : ∀ p ∈ cs.enum,
        (decide (¬ p.1 ∈ (cs.enum.filter (fun q =>
          isRightBranch ctx rule q.2)).map Prod.fst) : Bool)
          = !(isRightBranch ctx rule p.2) := by
      intro p hp
      rw [decide_not, pass2_idx_iff (isRightBranch ctx rule) cs p hp]
    rw [List.filter_congr hcong]
    simpa [List.enum] using enumFrom_filter_map_snd
      (fun c => !(isRightBranch ctx rule c)) id cs 0
  simp only [renderR]
  rw [hc, hk]
  simp only [Bool.false_eq_true, if_false]
  rw [if_neg (fun hand => absurd hand.2 (by rw [hlrb_len, hrrb_len]; omega))]
  rw [if_pos hrrb_ne]
  rw [hrecs, hnorms]

def c5Branch1 : RC :=
  seqNew [.reference 7 "E", .literal "a", .reference 7 "E"] none

def c5Branch2 : RC := seqNew [.literal "c", .reference 7 "E"] none

def c5Alts : List RC := [c5Branch1, c5Branch2]

def c5RuleE : Rule :=
  { rid := 4, name := "E", modelId := 7, content := some (altNew c5Alts) }

def c5Model : ModelS := { mid := 7, name := "H", nonTerminals := [c5RuleE] }

def c5Ctx : Ctx := [c5Model]

/-- Claim C5, counterexample: for `E : E a E | c E` the branches whose last
element is a self-reference number two against one left-recursive branch, so
the claim as stated demands the right-recursion fold — but the code counts
the both-ends-recursive branch as left-recursive only, takes the
left-recursion path, and renders a different diagram. -/
theorem c5_counterexample :
    (c5Alts.countP (isLeftBranch c5Ctx c5RuleE)
        < c5Alts.countP (isLastSelfRef c5Ctx c5RuleE))
      ∧ renderR {} c5Ctx 12 [] c5RuleE
          ≠ visitR {} c5Ctx 11 (c5RuleE.rid :: [])
              (seqNew
                [zeroPlusNew (optAlternative 11
                   ((c5Alts.filter (isLastSelfRef c5Ctx c5RuleE)).map
                     stripLast)),
                 optAlternative 11
                   (c5Alts.filter
                     (fun c => !(isLastSelfRef c5Ctx c5RuleE c)))]
                none) :=
  ⟨by decide, by decide⟩

def c5wBranch : RC := seqNew [.literal "a", .reference 8 "R"] none

def c5wAlts : List RC := [c5wBranch, .literal "b"]

def c5wRule : Rule :=
  { rid := 6, name := "R", modelId := 8, content := some (altNew c5wAlts) }

def c5wModel : ModelS := { mid := 8, name := "W", nonTerminals := [c5wRule] }

def c5wCtx : Ctx := [c5wModel]

/-- Claim C5 witness: the amended fold applied to `R : a R | b`. -/
theorem c5_right_recursion_amended_witness :
    renderR {} c5wCtx 11 [] c5wRule
      = visitR {} c5wCtx 10 (c5wRule.rid :: [])
          (seqNew
            [zeroPlusNew (optAlternative 10
               ((c5wAlts.filter (isRightBranch c5wCtx c5wRule)).map
                 stripLast)),
             optAlternative 10
               (c5wAlts.filter (fun c => !(isRightBranch c5wCtx c5wRule c)))]
            none) :=
  c5_right_recursion_amended {} c5wCtx 10 [] c5wRule c5wAlts
    (by decide) (by decide) (by decide)

theorem structEq_literal (a b : String) :
    structEq (RC.literal a) (RC.literal b) = decide (a = b) := by
  simp [structEq, RC.normalize]

theorem optAlt_two_lits (f : Nat) (b c : String) (hbc : b ≠ c) :
    optAlternative f [RC.literal b, RC.literal c]
      = altNew [RC.literal b, RC.literal c] := by
  cases f with
  | zero => rfl
  | succ f =>
    simp only [optAlternative]
    rw [if_neg (by simp)]
    have h1 : structEq (RC.literal b) (RC.literal b) = true := structEq_refl _
    have h2 : structEq (RC.literal c) (RC.literal c) = true := structEq_refl _
    have h3 : structEq (RC.literal c) (RC.literal b) = false := by
      rw [structEq_literal]
      simpa using fun h => hbc h.symm
    have h4 : structEq (RC.literal b) (RC.literal c) = false := by
      rw [structEq_literal]
      simpa using hbc
    simp [List.enum, List.enumFrom, List.filterMap, firstOf, lastOf,
      List.filter, h1, h2, h3, h4, altNew]

theorem seqNew_two_atoms (x y : RC)
    (hx : x ≠ EMPTY) (hy : y ≠ EMPTY)
    (hxq : ∀ cs ls t, x ≠ .sequence cs ls t)
    (hyq : ∀ cs ls t, y ≠ .sequence cs ls t) :
    seqNew [x, y] none = .sequence [x, y] [.DEFAULT] false := by
  simp only [seqNew, zipLongestLB, seqFold]
  rw [if_neg hx, if_neg hy]
  cases x with
  | sequence cs ls t => exact absurd rfl (hxq cs ls t)
  | _ =>
    cases y with
    | sequence cs ls t => exact absurd rfl (hyq cs ls t)
    | _ => rfl

theorem optAlt_lead (f : Nat) (a b c : String) (hbc : b ≠ c) :
    optAlternative (f + 1)
        [seqNew [RC.literal a, RC.literal b] none,
         seqNew [RC.literal a, RC.literal c] none]
      = seqNew [RC.literal a, altNew [RC.literal b, RC.literal c]] none := by
  have hs1 : seqNew [RC.literal a, RC.literal b] none
      = .sequence [RC.literal a, RC.literal b] [.DEFAULT] false :=
    seqNew_two_atoms _ _ (by simp [EMPTY]) (by simp [EMPTY])
      (by intro cs ls t h; cases h) (by intro cs ls t h; cases h)
  have hs2 : seqNew [RC.literal a, RC.literal c] none
      = .sequence [RC.literal a, RC.literal c] [.DEFAULT] false :=
    seqNew_two_atoms _ _ (by simp [EMPTY]) (by simp [EMPTY])
      (by intro cs ls t h; cases h) (by intro cs ls t h; cases h)
  rw [hs1, hs2]
  simp only [optAlternative]
  rw [if_neg (by simp)]
  have hrefl : structEq (RC.literal a) (RC.literal a) = true := structEq_refl _
  simp [hrefl, stripHeadOrEmpty, optAlt_two_lits f b c hbc, altNew, seqNew,
    firstOf, List.enum, List.enumFrom, zipLongestLB, seqFold, EMPTY]

theorem optAlt_trail (f : Nat) (a b x : String) (hab : a ≠ b) :
    optAlternative (f + 1)
        [seqNew [RC.literal a, RC.literal x] none,
         seqNew [RC.literal b, RC.literal x] none]
      = seqNew [altNew [RC.literal a, RC.literal b], RC.literal x] none := by
  have hs1 : seqNew [RC.literal a, RC.literal x] none
      = .sequence [RC.literal a, RC.literal x] [.DEFAULT] false :=
    seqNew_two_atoms _ _ (by simp [EMPTY]) (by simp [EMPTY])
      (by intro cs ls t h; cases h) (by intro cs ls t h; cases h)
  have hs2 : seqNew [RC.literal b, RC.literal x] none
      = .sequence [RC.literal b, RC.literal x] [.DEFAULT] false :=
    seqNew_two_atoms _ _ (by simp [EMPTY]) (by simp [EMPTY])
      (by intro cs ls t h; cases h) (by intro cs ls t h; cases h)
  rw [hs1, hs2]
  simp only [optAlternative]
  rw [if_neg (by simp)]
  have hxrefl : structEq (RC.literal x) (RC.literal x) = true :=
    structEq_refl _
  have hba : structEq (RC.literal b) (RC.literal a) = false := by
    rw [structEq_literal]
    simpa using fun h => hab h.symm
  have hab' : structEq (RC.literal a) (RC.literal b) = false := by
    rw [structEq_literal]
    simpa using hab
  have hf1 : firstOf (RC.sequence [RC.literal a, RC.literal x]
      [.DEFAULT] false) = RC.literal a := rfl
  have hf2 : firstOf (RC.sequence [RC.literal b, RC.literal x]
      [.DEFAULT] false) = RC.literal b := rfl
  have hl1 : lastOf (RC.sequence [RC.literal a, RC.literal x]
      [.DEFAULT] false) = RC.literal x := rfl
  have hl2 : lastOf (RC.sequence [RC.literal b, RC.literal x]
      [.DEFAULT] false) = RC.literal x := rfl
  have harefl : structEq (RC.literal a) (RC.literal a) = true :=
    structEq_refl _
  have hbrefl : structEq (RC.literal b) (RC.literal b) = true :=
    structEq_refl _
  simp [hf1, hf2, hl1, hl2, hxrefl, harefl, hbrefl, hba, hab',
    stripLastOrEmpty, optAlt_two_lits f a b hab, altNew, seqNew, List.enum,
    List.enumFrom, zipLongestLB, seqFold, EMPTY]

/-- Claim C6: factoring of alternatives before rendering.  A body
`Alternative([Sequence([A,B]), Sequence([A,C])])` renders as the diagram of
`Sequence([A, Alternative([B,C])])`, and a body
`Alternative([Sequence([A,X]), Sequence([B,X])])` renders as the diagram of
`Sequence([Alternative([A,B]), X])` (the leading-factor pass runs before the
trailing-factor pass and the trailing pass operates on its output), shown
here for atoms instantiated as literals. -/
theorem c6_alternative_factoring (st : RSettings) (ctx : Ctx) (f : Nat)
    (path : List Nat) (rule1 rule2 : Rule) (a b c x : String)
    (hbc : b ≠ c) (hab : a ≠ b)
    (hc1 : rule1.content = some (altNew
      [seqNew [RC.literal a, RC.literal b] none,
       seqNew [RC.literal a, RC.literal c] none]))
    (hk1 : rule1.keepDiagramRecursive = false)
    (hc2 : rule2.content = some (altNew
      [seqNew [RC.literal a, RC.literal x] none,
       seqNew [RC.literal b, RC.literal x] none]))
    (hk2 : rule2.keepDiagramRecursive = false) :
    renderR st ctx (f + 2) path rule1
        = visitR st ctx (f + 1) (rule1.rid :: path)
            (seqNew [RC.literal a, altNew [RC.literal b, RC.literal c]] none)
      ∧ renderR st ctx (f + 2) path rule2
        = visitR st ctx (f + 1) (rule2.rid :: path)
            (seqNew [altNew [RC.literal a, RC.literal b], RC.literal x]
              none) := by
  have hatom : ∀ (u v : String), seqNew [RC.literal u, RC.literal v] none
      = .sequence [RC.literal u, RC.literal v] [.DEFAULT] false := by
    intro u v
    exact seqNew_two_atoms _ _ (by simp [EMPTY]) (by simp [EMPTY])
      (by intro cs ls t h; cases h) (by intro cs ls t h; cases h)
  constructor
  · rw [hatom, hatom] at hc1
    have hAlt : altNew
        [RC.sequence [RC.literal a, RC.literal b] [.DEFAULT] false,
         RC.sequence [RC.literal a, RC.literal c] [.DEFAULT] false]
        = RC.alternative
          [RC.sequence [RC.literal a, RC.literal b] [.DEFAULT] false,
           RC.sequence [RC.literal a, RC.literal c] [.DEFAULT] false] := rfl
    rw [hAlt] at hc1
    simp only [renderR]
    rw [hc1, hk1]
    simp only [Bool.false_eq_true, if_false]
    simp only [isLeftBranch, isRightBranch, isLastSelfRef, isSelfRef,
      List.enum, List.enumFrom, List.filter, List.map, Bool.and_false,
      Bool.false_and, Bool.and_self]
    simp only [ne_eq, not_true_eq_false, false_and, if_false,
      List.length_nil]
    rw [← hatom, ← hatom, optAlt_lead f a b c hbc]
  · rw [hatom, hatom] at hc2
    have hAlt : altNew
        [RC.sequence [RC.literal a, RC.literal x] [.DEFAULT] false,
         RC.sequence [RC.literal b, RC.literal x] [.DEFAULT] false]
        = RC.alternative
          [RC.sequence [RC.literal a, RC.literal x] [.DEFAULT] false,
           RC.sequence [RC.literal b, RC.literal x] [.DEFAULT] false] := rfl
    rw [hAlt] at hc2
    simp only [renderR]
    rw [hc2, hk2]
    simp only [Bool.false_eq_true, if_false]
    simp only [isLeftBranch, isRightBranch, isLastSelfRef, isSelfRef,
      List.enum, List.enumFrom, List.filter, List.map, Bool.and_false,
      Bool.false_and, Bool.and_self]
    simp only [ne_eq, not_true_eq_false, false_and, if_false,
      List.length_nil]
    rw [← hatom, ← hatom, optAlt_trail f a b x hab]

def c6Rule1 : Rule :=
  { rid := 20, name := "F1", modelId := 9,
    content := some (altNew
      [seqNew [.literal "a", .literal "b"] none,
       seqNew [.literal "a", .literal "c"] none]) }

def c6Rule2 : Rule :=
  { rid := 21, name := "F2", modelId := 9,
    content := some (altNew
      [seqNew [.literal "a", .literal "x"] none,
       seqNew [.literal "b", .literal "x"] none]) }

/-- Claim C6 witness: both factorings at concrete literals. -/
theorem c6_alternative_factoring_witness :
    renderR {} [] 10 [] c6Rule1
        = visitR {} [] 9 (c6Rule1.rid :: [])
            (seqNew [RC.literal "a", altNew [RC.literal "b", RC.literal "c"]]
              none)
      ∧ renderR {} [] 10 [] c6Rule2
        = visitR {} [] 9 (c6Rule2.rid :: [])
            (seqNew [altNew [RC.literal "a", RC.literal "b"], RC.literal "x"]
              none) :=
  c6_alternative_factoring {} [] 8 [] c6Rule1 c6Rule2 "a" "b" "c" "x"
    (by decide) (by decide) rfl rfl rfl rfl


def c7Rule : Rule :=
  { rid := 30, name := "S1", modelId := 9,
    content := some (seqNew [zeroPlusNew (.literal "x"), .literal "x"] none) }

def c7MirrorRule : Rule :=
  { rid := 31, name := "S2", modelId := 9,
    content := some (seqNew [.literal "x", zeroPlusNew (.literal "x")] none) }

/-- Claim C7 (code bug): on the forward pattern `x* x` the full-overlap
branch of `_opt_sequence` sets `seq_end = len(nested_seq)` and
`nested_seq_end = -1`, so the collapsed node is `OneOrMore(Skip,
repeat = x)` — the part appearing literally once becomes empty and the
whole run denotes zero-or-more `x` instead of the required one-or-more
`x`.  The mirrored input `x x*` takes the backward branch and produces
the correct `OneOrMore(x, repeat = Skip)`; the two outputs differ. -/
theorem c7_sequence_repetition_bug :
    renderR {} [] 12 [] c7Rule
        = Element.sequenceE
            [Element.oneOrMore Element.skip
              (some (Element.sequenceE
                [Element.terminal "x" none (some "literal") false] []))]
            []
      ∧ renderR {} [] 12 [] c7MirrorRule
          = Element.sequenceE
              [Element.oneOrMore
                (Element.sequenceE
                  [Element.terminal "x" none (some "literal") false] [])
                (some Element.skip)]
              []
      ∧ renderR {} [] 12 [] c7Rule ≠ renderR {} [] 12 [] c7MirrorRule :=
  ⟨by decide, by decide, by decide⟩

/-- The `grouping` option of `auto-rule` (`syntax_grouping` default:
`parser-first`). -/
inductive Grouping where
  | mixed
  | lexerFirst
  | parserFirst
deriving DecidableEq

/-- The `ordering` option of `auto-rule` (`syntax_ordering` default:
`by-source`). -/
inductive OrderingMode where
  | bySource
  | byName
deriving DecidableEq

/-- The options consulted by `make_order`, with the extension's config
defaults. -/
structure OrderOpts where
  lexerRules : Bool := true
  parserRules : Bool := true
  fragments : Bool := false
  ordering : OrderingMode := .bySource
  grouping : Grouping := .parserFirst
deriving DecidableEq

/-- Python string comparison: code-point lexicographic on the character
lists. -/
def strLtb : List Char → List Char → Bool
  | [], [] => false
  | [], _ :: _ => true
  | _ :: _, [] => false
  | a :: as, b :: bs =>
    if a.toNat < b.toNat then true
    else if b.toNat < a.toNat then false
    else strLtb as bs

/-- `str.lower()` on a character (the cased characters in grammar rule
names are ASCII). -/
def lowerChar (c : Char) : Char :=
  if c.toNat ≥ 65 ∧ c.toNat ≤ 90 then Char.ofNat (c.toNat + 32) else c

/-- The `key=precedence` comparison of `sorted` as a boolean `≤`: by
`rule.position` — the ordered `Position` dataclass compares `(file,
line)` lexicographically, and `pathlib.Path` compares as its string —
under `by-source`, and by `rule.name.lower()` under `by-name`. -/
def precedenceLe (o : OrderingMode) (a b : Rule) : Bool :=
  match o with
  | .bySource =>
      strLtb a.posFile.data b.posFile.data
        || (decide (a.posFile = b.posFile)
              && decide (a.posLine ≤ b.posLine))
  | .byName =>
      let la := a.name.data.map lowerChar
      let lb := b.name.data.map lowerChar
      strLtb la lb || decide (la = lb)

/-- Insert into an already-sorted list, after every element that compares
`≤`: Python's stable sort keeps earlier elements first on ties. -/
def insertRule (le : Rule → Rule → Bool) (r : Rule) : List Rule → List Rule
  | [] => [r]
  | x :: xs => if le x r then x :: insertRule le r xs else r :: x :: xs

/-- `sorted(rules, key=precedence)`: a stable ascending sort. -/
def sortedRules (le : Rule → Rule → Bool) (rs : List Rule) : List Rule :=
  rs.foldl (fun acc r => insertRule le r acc) []

/-- The lexer-rule selection of `make_order`: empty unless the
`lexer-rules` option is on, fragments dropped unless `fragments` is
on. -/
def lexerSelection (o : OrderOpts) (m : ModelS) : List Rule :=
  if o.lexerRules then
    if o.fragments then m.terminals
    else m.terminals.filter (fun r => !r.isFragment)
  else []

/-- The parser-rule selection of `make_order`. -/
def parserSelection (o : OrderOpts) (m : ModelS) : List Rule :=
  if o.parserRules then m.nonTerminals else []

/-- The deduplication loop of `make_order`: drop `nodoc` and `inline`
rules and every rule already seen, keeping the first occurrence. -/
def uniqueRules (seen : List Rule) : List Rule → List Rule
  | [] => []
  | r :: rs =>
    if r.isNodoc || r.isInline || seen.contains r then uniqueRules seen rs
    else r :: uniqueRules (r :: seen) rs

/-- `AutoGrammarDescription.make_order` up to the rule list it yields
(the separate root-rule resolution is not consulted here).  The `mixed`
branch writes `list(*lexer_rules, *parser_rules)`: `list` accepts at
most one positional argument and a rule object is not iterable, so
every non-empty selection raises a `TypeError`; only the empty
selection, where the call is `list()`, survives. -/
def makeOrder (o : OrderOpts) (m : ModelS) : Except String (List Rule) :=
  let lexerRules := lexerSelection o m
  let parserRules := parserSelection o m
  let le := precedenceLe o.ordering
  match o.grouping with
  | .mixed =>
    match lexerRules ++ parserRules with
    | [] => .ok (uniqueRules [] (sortedRules le []))
    | _ :: _ => .error "TypeError"
  | .lexerFirst =>
    .ok (uniqueRules []
      (sortedRules le lexerRules ++ sortedRules le parserRules))
  | .parserFirst =>
    .ok (uniqueRules []
      (sortedRules le parserRules ++ sortedRules le lexerRules))

def c9ParserRule : Rule :=
  { rid := 40, name := "expr", posFile := "g.g4", posLine := 10 }

def c9LexerRuleB : Rule :=
  { rid := 41, name := "B", isLexer := true, posFile := "g.g4",
    posLine := 1 }

def c9LexerRuleA : Rule :=
  { rid := 42, name := "a", isLexer := true, posFile := "g.g4",
    posLine := 2 }

def c9Model : ModelS :=
  { mid := 12, terminals := [c9LexerRuleB, c9LexerRuleA],
    nonTerminals := [c9ParserRule] }

/-- Claim C9 (code bug): the `mixed` grouping runs
`list(*lexer_rules, *parser_rules)`, which raises a `TypeError` for
every non-empty selection, so no mixed ordering is ever produced (only
an empty selection survives, as `list()`).  The grouped modes behave as
claimed: `parser-first` under `by-source` sorts each group by `(file,
line)`, and `lexer-first` under `by-name` sorts case-insensitively,
placing `a` before `B`. -/
theorem c9_make_order_mixed_bug :
    makeOrder { grouping := .mixed, ordering := .bySource } c9Model
        = .error "TypeError"
      ∧ makeOrder { grouping := .mixed, ordering := .byName } c9Model
        = .error "TypeError"
      ∧ makeOrder { grouping := .mixed } { mid := 13 } = .ok []
      ∧ makeOrder { grouping := .parserFirst, ordering := .bySource }
          c9Model
        = .ok [c9ParserRule, c9LexerRuleB, c9LexerRuleA]
      ∧ makeOrder { grouping := .lexerFirst, ordering := .byName } c9Model
        = .ok [c9LexerRuleA, c9LexerRuleB, c9ParserRule] :=
  ⟨rfl, rfl, rfl, rfl, rfl⟩

end SphinxSyntax
